import Mathlib

/-!
Transactions of the `coin` package (`src/coin/transactions.go`).

A shallow embedding of the transaction model, the builder operations and
`Transaction.Verify`.

Conventions of the embedding.

* The receiver prefix of `Verify` is garbled in the source (`txnIn`, `txnHeader`,
  `txnhashInner()`, `txn.In`); these are read as `self.In`, `self.Header`,
  `self.hashInner()`.
* Go slices are lists; `uint16`/`uint64` fields are natural numbers, with an
  explicit `% 65536` where the source converts an `int` to `uint16`.
* A Go function that may panic returns an `Outcome`: `ret v` for a normal return
  and `panic msg` for a run-time panic (`log.Panic`, or an index out of range).
  The `error` result of `Verify` is an `Option String`: `none` is `nil`.
* Code from other packages and files (the encoder, the digests, the signature
  functions, `UxOut.Hash`) is taken as a parameter, the record `Externals`.
* The map `keys` of `SignInputs` is a total function: a Go map read yields the
  zero value for a missing key. Slice indices are natural numbers; an index past
  the end panics.
-/

namespace Coin

/-! ## Data model -/

/-- A byte. -/
abbrev Byte := Fin 256

/-- A fixed-size byte array, the Go type `[n]byte`. -/
abbrev ByteArr (n : Nat) := { l : List Byte // l.length = n }

/-- The Go type `SHA256`, a 32-byte array compared by value. -/
abbrev SHA256 := ByteArr 32

/-- The Go type `Sig`, "64+1 bytes". -/
abbrev Sig := ByteArr 65

/-- The zero value of a fixed-size byte array, as in `Sig{}`. -/
def ByteArr.zero (n : Nat) : ByteArr n := ⟨List.replicate n 0, List.length_replicate n 0⟩

/-- The constant `math.MaxUint16`. -/
def MaxUint16 : Nat := 65535

/-- The type `TransactionInput`. -/
structure TransactionInput where
  SigIdx : Nat
  UxOut : SHA256
deriving DecidableEq

/-- The type `TransactionOutput`. -/
structure TransactionOutput (Address : Type) where
  DestinationAddress : Address
  Coins : Nat
  Hours : Nat
deriving DecidableEq

/-- The type `TransactionHeader`. -/
structure TransactionHeader where
  Hash : SHA256
  Sigs : List Sig
deriving DecidableEq

/-- The type `Transaction`. -/
structure Transaction (Address : Type) where
  Header : TransactionHeader
  In : List TransactionInput
  Out : List (TransactionOutput Address)
deriving DecidableEq

/-- The fields of the type `UxOut` that `Verify` fills in. -/
structure UxOut (Address : Type) where
  SrcTransaction : SHA256
  Address : Address
  Coins : Nat
  Hours : Nat
deriving DecidableEq

/-- The zero value `var t Transaction`. -/
def Transaction.zero (Address : Type) : Transaction Address :=
  { Header := { Hash := ByteArr.zero 32, Sigs := [] }, In := [], Out := [] }

/-- The result of a Go call that either returns a value or panics. -/
inductive Outcome (α : Type) where
  | ret (a : α)
  | panic (msg : String)
deriving DecidableEq

/-- The way a loop of `Verify` is left: its condition became false, a `return`
    statement inside it ran, or an index expression inside it panicked. -/
inductive LoopExit where
  | done
  | returned (err : String)
  | panicked (msg : String)
deriving DecidableEq

/-- The functions `transactions.go` calls that are defined elsewhere.
`encoder.Serialize` is used at three types; `DeserializeRaw b t` is the `error`
returned by `encoder.DeserializeRaw(b, t)` with `t` passed by value. -/
structure Externals (Address SecKey PubKey : Type) where
  serializeIn : List TransactionInput → List Byte
  serializeOut : List (TransactionOutput Address) → List Byte
  serializeTxn : Transaction Address → List Byte
  DeserializeRaw : List Byte → Transaction Address → Option String
  SumSHA256 : List Byte → SHA256
  SumDoubleSHA256 : List Byte → SHA256
  uxOutHash : UxOut Address → SHA256
  PubKeyFromSig : Sig → Except String PubKey
  VerifySignature : PubKey → Sig → SHA256 → Option String
  SignHash : SHA256 → SecKey → Except String Sig

/-- Modelled from the spec: `HashArrayHasDupes` is defined in another file of the
package; the duplicate-output step fails "if any two collide", so it is true
exactly on lists with two equal elements at distinct positions. -/
def HashArrayHasDupes (hashes : List SHA256) : Bool :=
  decide (¬ hashes.Nodup)

section Ops

variable {Address SecKey PubKey : Type}

/-! ## Hashing and serialization -/

/-- The method `hashInner`: the digest of the encoded inputs followed by the
encoded outputs. -/
def hashInner (E : Externals Address SecKey PubKey) (t : Transaction Address) : SHA256 :=
  let b1 := E.serializeIn t.In
  let b2 := E.serializeOut t.Out
  let b3 := b1 ++ b2
  E.SumSHA256 b3

/-- The method `Hash`: the double digest of the whole encoded transaction. -/
def Hash (E : Externals Address SecKey PubKey) (t : Transaction Address) : SHA256 :=
  let b1 := E.serializeTxn t
  E.SumDoubleSHA256 b1

/-- The method `Serialize`. -/
def Serialize (E : Externals Address SecKey PubKey) (t : Transaction Address) : List Byte :=
  E.serializeTxn t

/-- The function `TransactionDeserialize`. The local `t` is handed to the decoder
by value, so the returned `t` is the zero value it was declared with. -/
def TransactionDeserialize (E : Externals Address SecKey PubKey) (b : List Byte) :
    Outcome (Transaction Address) :=
  let t := Transaction.zero Address
  match E.DeserializeRaw b t with
  | some _ => Outcome.panic "Failed to deserialize transaction"
  | none => Outcome.ret t

/-- The method `UpdateHeader`. -/
def UpdateHeader (E : Externals Address SecKey PubKey) (t : Transaction Address) :
    Transaction Address :=
  { t with Header := { t.Header with Hash := hashInner E t } }

/-! ## Builder -/

/-- The method `PushInput`: the transaction after the call and the returned
signature index. -/
def PushInput (t : Transaction Address) (uxOut : SHA256) : Outcome (Transaction Address × Nat) :=
  if t.In.length ≥ MaxUint16 then
    Outcome.panic "Max transaction inputs reached"
  else
    let sigIdx := t.In.length % 65536
    let ti : TransactionInput := { SigIdx := sigIdx, UxOut := uxOut }
    Outcome.ret ({ t with In := t.In ++ [ti] }, sigIdx)

/-- The method `PushOutput`. -/
def PushOutput (t : Transaction Address) (dst : Address) (coins hours : Nat) :
    Transaction Address :=
  let txo : TransactionOutput Address :=
    { DestinationAddress := dst, Coins := coins, Hours := hours }
  { t with Out := t.Out ++ [txo] }

/-- The loop `for len(self.Header.Sigs) <= int(idx)` of `signInput`, which appends
`Sig{}` until position `idx` exists. -/
def growSigs (sigs : List Sig) (idx : Nat) : List Sig :=
  if sigs.length ≤ idx then growSigs (sigs ++ [ByteArr.zero 65]) idx else sigs
termination_by idx + 1 - sigs.length
decreasing_by
  simp only [List.length_append, List.length_singleton]
  omega

/-- The method `signInput`. -/
def signInput (E : Externals Address SecKey PubKey) (t : Transaction Address) (idx : Nat)
    (sec : SecKey) : Outcome (Transaction Address) :=
  let hash := hashInner E t
  match E.SignHash hash sec with
  | Except.error _ => Outcome.panic "Failed to sign hash"
  | Except.ok sig =>
    let txInLen := t.In.length
    if txInLen > MaxUint16 then
      Outcome.panic "In too large"
    else if idx ≥ txInLen % 65536 then
      Outcome.panic "Invalid In idx"
    else
      let sigs := growSigs t.Header.Sigs idx
      Outcome.ret { t with Header := { t.Header with Sigs := sigs.set idx sig } }

/-- The loop of `SignInputs` over the inputs that remain to be signed. -/
def signInputsLoop (E : Externals Address SecKey PubKey) (keys : Nat → SecKey) :
    List TransactionInput → Transaction Address → Outcome (Transaction Address)
  | [], t => Outcome.ret t
  | ti :: rest, t =>
    match signInput E t ti.SigIdx (keys ti.SigIdx) with
    | Outcome.panic msg => Outcome.panic msg
    | Outcome.ret t1 => signInputsLoop E keys rest t1

/-- The method `SignInputs`; `keys` is the map with its zero-value default. -/
def SignInputs (E : Externals Address SecKey PubKey) (t : Transaction Address)
    (keys : Nat → SecKey) : Outcome (Transaction Address) :=
  signInputsLoop E keys t.In t

/-! ## Verify -/

/-- The inner loop `for j := i + 1; i < len(In); j++` of the duplicate-input scan,
entered at `j`. Its condition tests `i`, as in the source. -/
def dupInner (ins : List TransactionInput) (i j : Nat) : LoopExit :=
  if hi : i < ins.length then
    if hj : j < ins.length then
      if ins[i].UxOut = ins[j].UxOut then
        LoopExit.returned "Duplicate spend"
      else
        dupInner ins i (j + 1)
    else
      LoopExit.panicked "index out of range"
  else
    LoopExit.done
termination_by ins.length - j

/-- The outer loop `for i := 0; i < len(In); i++` of the duplicate-input scan,
entered at `i`. -/
def dupOuter (ins : List TransactionInput) (i : Nat) : LoopExit :=
  if i < ins.length then
    match dupInner ins i (i + 1) with
    | LoopExit.done => dupOuter ins (i + 1)
    | LoopExit.returned err => LoopExit.returned err
    | LoopExit.panicked msg => LoopExit.panicked msg
  else
    LoopExit.done
termination_by ins.length - i

/-- The loop that fills `outputs` with one `UxOut` hash per output. -/
def outputHashes (E : Externals Address SecKey PubKey) (t : Transaction Address) : List SHA256 :=
  t.Out.foldl
    (fun outputs txo =>
      let uxb : UxOut Address :=
        { SrcTransaction := t.Header.Hash, Coins := txo.Coins, Hours := txo.Hours,
          Address := txo.DestinationAddress }
      outputs ++ [E.uxOutHash uxb])
    []

/-- The loop `for _, txi := range txn.In` that validates the signatures. -/
def verifySigs (E : Externals Address SecKey PubKey) (t : Transaction Address) :
    List TransactionInput → Outcome (Option String)
  | [] => Outcome.ret none
  | txi :: rest =>
    match t.Header.Sigs[txi.SigIdx]? with
    | none => Outcome.panic "index out of range"
    | some sig =>
      let hash := txi.UxOut
      match E.PubKeyFromSig sig with
      | Except.error _ => Outcome.ret (some "pubkey recovery from signature failed")
      | Except.ok pubkey =>
        match E.VerifySignature pubkey sig hash with
        | some _ => Outcome.ret (some "signature verification failed")
        | none => verifySigs E t rest

/-- The method `Verify`. -/
def Verify (E : Externals Address SecKey PubKey) (t : Transaction Address) :
    Outcome (Option String) :=
  let h := hashInner E t
  if h ≠ t.Header.Hash then
    Outcome.ret (some "Invalid header hash")
  else if t.In.length = 0 then
    Outcome.ret (some "No inputs")
  else if t.Out.length = 0 then
    Outcome.ret (some "No outputs")
  else if t.Header.Sigs.length ≥ MaxUint16 then
    Outcome.ret (some "signatures count exceeds uint16")
  else
    match dupOuter t.In 0 with
    | LoopExit.returned err => Outcome.ret (some err)
    | LoopExit.panicked msg => Outcome.panic msg
    | LoopExit.done =>
      let outputs := outputHashes E t
      if HashArrayHasDupes outputs = true then
        Outcome.ret (some "Duplicate output in transaction")
      else
        verifySigs E t t.In

/-- The method `Verify` with the value its local `outputs` has at the test of
line 103 next to its result: `none` when the call ends before that line, so that
no output identifier has been put to use. -/
def VerifyWithOutputs (E : Externals Address SecKey PubKey) (t : Transaction Address) :
    Outcome (Option String) × Option (List SHA256) :=
  let h := hashInner E t
  if h ≠ t.Header.Hash then
    (Outcome.ret (some "Invalid header hash"), none)
  else if t.In.length = 0 then
    (Outcome.ret (some "No inputs"), none)
  else if t.Out.length = 0 then
    (Outcome.ret (some "No outputs"), none)
  else if t.Header.Sigs.length ≥ MaxUint16 then
    (Outcome.ret (some "signatures count exceeds uint16"), none)
  else
    match dupOuter t.In 0 with
    | LoopExit.returned err => (Outcome.ret (some err), none)
    | LoopExit.panicked msg => (Outcome.panic msg, none)
    | LoopExit.done =>
      let outputs := outputHashes E t
      if HashArrayHasDupes outputs = true then
        (Outcome.ret (some "Duplicate output in transaction"), some outputs)
      else
        (verifySigs E t t.In, some outputs)

/-! ## Builder runs -/

/-- The receiver after a call of `PushInput` together with what the call gives:
the guard panics before the assignment to `self.In`. -/
def PushInputRun (t : Transaction Address) (uxOut : SHA256) :
    Transaction Address × Outcome Nat :=
  if t.In.length ≥ MaxUint16 then
    (t, Outcome.panic "Max transaction inputs reached")
  else
    let sigIdx := t.In.length % 65536
    let ti : TransactionInput := { SigIdx := sigIdx, UxOut := uxOut }
    ({ t with In := t.In ++ [ti] }, Outcome.ret sigIdx)

/-- Successive calls of `PushInput`, one for each hash, stopping at a panic. -/
def pushInputs : List SHA256 → Transaction Address → Outcome (Transaction Address)
  | [], t => Outcome.ret t
  | h :: hs, t =>
    match PushInput t h with
    | Outcome.panic msg => Outcome.panic msg
    | Outcome.ret (t1, _) => pushInputs hs t1

/-- A call of one of the exported builder methods. -/
inductive BuilderCall (Address SecKey : Type) where
  | pushInput (uxOut : SHA256)
  | pushOutput (dst : Address) (coins hours : Nat)
  | updateHeader
  | signInputs (keys : Nat → SecKey)

/-- The transaction after one builder call. -/
def runCall (E : Externals Address SecKey PubKey) (t : Transaction Address) :
    BuilderCall Address SecKey → Outcome (Transaction Address)
  | BuilderCall.pushInput h =>
    match PushInput t h with
    | Outcome.panic msg => Outcome.panic msg
    | Outcome.ret (t1, _) => Outcome.ret t1
  | BuilderCall.pushOutput dst coins hours => Outcome.ret (PushOutput t dst coins hours)
  | BuilderCall.updateHeader => Outcome.ret (UpdateHeader E t)
  | BuilderCall.signInputs keys => SignInputs E t keys

/-- The transaction after a sequence of builder calls, stopping at a panic. -/
def runCalls (E : Externals Address SecKey PubKey) :
    List (BuilderCall Address SecKey) → Transaction Address → Outcome (Transaction Address)
  | [], t => Outcome.ret t
  | c :: cs, t =>
    match runCall E t c with
    | Outcome.panic msg => Outcome.panic msg
    | Outcome.ret t1 => runCalls E cs t1

/-- The builder run that pushes the inputs `hs` on the empty transaction, pushes
one output, calls `UpdateHeader` and then `SignInputs`. -/
def buildAndSign (E : Externals Address SecKey PubKey) (hs : List SHA256) (dst : Address)
    (coins hours : Nat) (keys : Nat → SecKey) : Outcome (Transaction Address) :=
  match pushInputs hs (Transaction.zero Address) with
  | Outcome.panic msg => Outcome.panic msg
  | Outcome.ret t => SignInputs E (UpdateHeader E (PushOutput t dst coins hours)) keys

/-- What the builder methods maintain: every input carries its position as
`SigIdx`, there are at most 65535 inputs, and no more signatures than inputs. -/
def BuilderInv (t : Transaction Address) : Prop :=
  (∀ i (h : i < t.In.length), t.In[i].SigIdx = i) ∧ t.In.length ≤ 65535 ∧
    t.Header.Sigs.length ≤ t.In.length

/-! ## Ordering -/

/-- The function `bytes.Compare`: -1, 0 or 1 by lexicographic comparison. -/
def bytesCompare : List Byte → List Byte → Int
  | [], [] => 0
  | [], _ :: _ => -1
  | _ :: _, [] => 1
  | a :: xs, b :: ys => if a < b then -1 else if b < a then 1 else bytesCompare xs ys

/-- The method `Transactions.Len`. -/
def Len (self : List (Transaction Address)) : Nat :=
  self.length

/-- The method `Transactions.Less`; an index outside the slice panics. -/
def Less (self : List (Transaction Address)) (i j : Nat) : Outcome Bool :=
  match self[i]?, self[j]? with
  | some a, some b =>
    Outcome.ret (decide (bytesCompare a.Header.Hash.val b.Header.Hash.val < 0))
  | _, _ => Outcome.panic "index out of range"

/-- The method `Transactions.Swap`: the slice after the call; an index outside the
slice panics before any element is assigned. -/
def Swap (self : List (Transaction Address)) (i j : Nat) :
    Outcome (List (Transaction Address)) :=
  match self[i]?, self[j]? with
  | some a, some b => Outcome.ret ((self.set i b).set j a)
  | _, _ => Outcome.panic "index out of range"

end Ops

/-! ## A concrete instance of the external functions

Addresses, secret keys and public keys are numbers; the encoder writes 4-byte
little-endian lengths and fixed-width fields; the digest is a checksum. The
instance is used to evaluate the operations on concrete transactions. -/

/-- The `w` low bytes of `n`, least significant first. -/
def leBytes (w n : Nat) : List Byte :=
  (List.range w).map (fun k => Fin.ofNat (n / 256 ^ k))

/-- A checksum standing for a digest: the byte sum, the length, then zeros. -/
def checksum (bs : List Byte) : SHA256 :=
  ⟨Fin.ofNat (bs.map Fin.val).sum :: Fin.ofNat bs.length :: List.replicate 30 0, by simp⟩

/-- The encoding of the inputs: a length, then `SigIdx` and `UxOut` of each. -/
def encodeIn (ins : List TransactionInput) : List Byte :=
  leBytes 4 ins.length ++ (ins.map (fun i => leBytes 2 i.SigIdx ++ i.UxOut.val)).flatten

/-- The encoding of the outputs: a length, then address, coins and hours of each. -/
def encodeOut (outs : List (TransactionOutput Nat)) : List Byte :=
  leBytes 4 outs.length ++
    (outs.map (fun o => leBytes 4 o.DestinationAddress ++ leBytes 8 o.Coins ++
      leBytes 8 o.Hours)).flatten

/-- The encoding of a transaction: header hash, signatures, inputs, outputs. -/
def encodeTxn (t : Transaction Nat) : List Byte :=
  t.Header.Hash.val ++ leBytes 4 t.Header.Sigs.length ++
    (t.Header.Sigs.map Subtype.val).flatten ++ encodeIn t.In ++ encodeOut t.Out

/-- A signature of `h` by `sec`: the hash bytes followed by 33 bytes of the key. -/
def signWith (h : SHA256) (sec : Nat) : Sig :=
  ⟨h.val ++ leBytes 33 sec, by simp [leBytes, h.property]⟩

/-- The concrete instance. The decoder rejects inputs shorter than a header hash
and three length fields; every signature recovers a key and verifies. -/
def sampleExternals : Externals Nat Nat Nat where
  serializeIn := encodeIn
  serializeOut := encodeOut
  serializeTxn := encodeTxn
  DeserializeRaw := fun b _ => if b.length < 44 then some "not enough buffer data" else none
  SumSHA256 := checksum
  SumDoubleSHA256 := fun bs => checksum (checksum bs).val
  uxOutHash := fun u =>
    checksum (u.SrcTransaction.val ++ leBytes 4 u.Address ++ leBytes 8 u.Coins ++
      leBytes 8 u.Hours)
  PubKeyFromSig := fun sig => Except.ok (sig.val.map Fin.val).sum
  VerifySignature := fun _ _ _ => none
  SignHash := fun h sec => Except.ok (signWith h sec)

/-- A hash whose first byte is `b` and whose other bytes are zero. -/
def hashOf (b : Byte) : SHA256 :=
  ⟨b :: List.replicate 31 0, by simp⟩

/-- The empty transaction a builder starts from. -/
def emptyTxn : Transaction Nat := Transaction.zero Nat

/-- The builder run of the end-to-end scenario: one input `H1`, one output
`(A, 100, 10)`, `UpdateHeader`, then input 0 signed with `K`. -/
def buildOneInOneOut {Address SecKey PubKey : Type} (E : Externals Address SecKey PubKey)
    (H1 : SHA256) (A : Address) (K : SecKey) : Outcome (Transaction Address) :=
  match PushInput (Transaction.zero Address) H1 with
  | Outcome.panic msg => Outcome.panic msg
  | Outcome.ret (t1, _) => signInput E (UpdateHeader E (PushOutput t1 A 100 10)) 0 K

/-- The transaction the end-to-end scenario builds with `H1 = hashOf 1`, `A = 7`
and `K = 5` under `sampleExternals`. -/
def signedTxn : Transaction Nat :=
  { Header :=
      { Hash := hashInner sampleExternals
          { Header := { Hash := ByteArr.zero 32, Sigs := [] },
            In := [{ SigIdx := 0, UxOut := hashOf 1 }],
            Out := [{ DestinationAddress := 7, Coins := 100, Hours := 10 }] },
        Sigs := [signWith (hashInner sampleExternals
          { Header := { Hash := ByteArr.zero 32, Sigs := [] },
            In := [{ SigIdx := 0, UxOut := hashOf 1 }],
            Out := [{ DestinationAddress := 7, Coins := 100, Hours := 10 }] }) 5] },
    In := [{ SigIdx := 0, UxOut := hashOf 1 }],
    Out := [{ DestinationAddress := 7, Coins := 100, Hours := 10 }] }

/-- The transaction `signedTxn` with the coins of its output changed to 101 and the
header left as it was. -/
def tamperedTxn : Transaction Nat :=
  { signedTxn with Out := [{ DestinationAddress := 7, Coins := 101, Hours := 10 }] }

/-- A finalized transaction whose second and third inputs spend the same output. -/
def dupLaterTxn : Transaction Nat :=
  UpdateHeader sampleExternals
    { Header := { Hash := ByteArr.zero 32, Sigs := [] },
      In := [{ SigIdx := 0, UxOut := hashOf 1 }, { SigIdx := 1, UxOut := hashOf 2 },
        { SigIdx := 2, UxOut := hashOf 2 }],
      Out := [{ DestinationAddress := 7, Coins := 100, Hours := 10 }] }

/-- A finalized transaction with two distinct inputs, one output and a signature
for each input. -/
def twoInputTxn : Transaction Nat :=
  UpdateHeader sampleExternals
    { Header := { Hash := ByteArr.zero 32, Sigs := [signWith (hashOf 9) 5, signWith (hashOf 9) 6] },
      In := [{ SigIdx := 0, UxOut := hashOf 1 }, { SigIdx := 1, UxOut := hashOf 2 }],
      Out := [{ DestinationAddress := 7, Coins := 100, Hours := 10 }] }

/-- A finalized transaction with one input and two identical outputs. -/
def dupOutTxn : Transaction Nat :=
  UpdateHeader sampleExternals
    { Header := { Hash := ByteArr.zero 32, Sigs := [signWith (hashOf 9) 5] },
      In := [{ SigIdx := 0, UxOut := hashOf 1 }],
      Out := [{ DestinationAddress := 7, Coins := 100, Hours := 10 },
        { DestinationAddress := 7, Coins := 100, Hours := 10 }] }

/-- A finalized transaction with neither inputs nor outputs. -/
def noInOutTxn : Transaction Nat :=
  UpdateHeader sampleExternals emptyTxn

/-- A finalized transaction with one input and no outputs. -/
def noOutTxn : Transaction Nat :=
  UpdateHeader sampleExternals
    { Header := { Hash := ByteArr.zero 32, Sigs := [] },
      In := [{ SigIdx := 0, UxOut := hashOf 1 }],
      Out := [] }

/-- The transaction `signedTxn` carrying `n` zero signatures instead of its own. -/
def withSigCount (n : Nat) : Transaction Nat :=
  { signedTxn with Header := { signedTxn.Header with Sigs := List.replicate n (ByteArr.zero 65) } }

/-- A finalized transaction with one input and an output of 20 coins. -/
def coins20Txn : Transaction Nat :=
  UpdateHeader sampleExternals
    { Header := { Hash := ByteArr.zero 32, Sigs := [] },
      In := [{ SigIdx := 0, UxOut := hashOf 1 }],
      Out := [{ DestinationAddress := 7, Coins := 20, Hours := 10 }] }

/-- The same transaction with an output of 40 coins. -/
def coins40Txn : Transaction Nat :=
  UpdateHeader sampleExternals
    { Header := { Hash := ByteArr.zero 32, Sigs := [] },
      In := [{ SigIdx := 0, UxOut := hashOf 1 }],
      Out := [{ DestinationAddress := 7, Coins := 40, Hours := 10 }] }

/-- The two finalized transactions as a slice. -/
def orderTxns : List (Transaction Nat) :=
  [coins20Txn, coins40Txn]

/-- Three transactions with the header hashes 1, 2 and 3 and nothing else. -/
def threeTxns : List (Transaction Nat) :=
  [{ Header := { Hash := hashOf 1, Sigs := [] }, In := [], Out := [] },
    { Header := { Hash := hashOf 2, Sigs := [] }, In := [], Out := [] },
    { Header := { Hash := hashOf 3, Sigs := [] }, In := [], Out := [] }]

/-- The builder calls of the end-to-end scenario. -/
def sampleCalls : List (BuilderCall Nat Nat) :=
  [BuilderCall.pushInput (hashOf 1), BuilderCall.pushOutput 7 100 10,
    BuilderCall.updateHeader, BuilderCall.signInputs (fun _ => 5)]

end Coin

namespace Coin

section Lemmas

variable {Address SecKey PubKey : Type}

/-! ## The duplicate-input scan -/

/-- Past the end of the inputs the inner loop panics on `In[j]`. -/
theorem dupInner_of_le (ins : List TransactionInput) (i j : Nat) (hi : i < ins.length)
    (hj : ins.length ≤ j) : dupInner ins i j = LoopExit.panicked "index out of range" := by
  rw [dupInner]
  simp [hi, Nat.not_lt.mpr hj]

/-- One iteration of the inner loop. -/
theorem dupInner_step (ins : List TransactionInput) (i j : Nat) (hi : i < ins.length)
    (hj : j < ins.length) :
    dupInner ins i j =
      if ins[i].UxOut = ins[j].UxOut then LoopExit.returned "Duplicate spend"
      else dupInner ins i (j + 1) := by
  rw [dupInner]
  simp [hi, hj]

/-- The inner loop entered at `j` returns "Duplicate spend" when an input at or
after `j` has the `UxOut` of input `i`, and panics otherwise. -/
theorem dupInner_eq (ins : List TransactionInput) (i : Nat) (hi : i < ins.length) :
    ∀ (n j : Nat), ins.length - j = n →
      dupInner ins i j =
        if (ins.drop j).any (fun b => decide (ins[i].UxOut = b.UxOut)) = true then
          LoopExit.returned "Duplicate spend"
        else LoopExit.panicked "index out of range" := by
  intro n
  induction n with
  | zero =>
    intro j hn
    have hj : ins.length ≤ j := by omega
    rw [dupInner_of_le ins i j hi hj, List.drop_eq_nil_of_le hj]
    simp
  | succ n ih =>
    intro j hn
    have hj : j < ins.length := by omega
    rw [dupInner_step ins i j hi hj, List.drop_eq_getElem_cons hj, List.any_cons,
      ih (j + 1) (by omega)]
    by_cases h : ins[i].UxOut = ins[j].UxOut
    · simp [h]
    · simp [h]

/-- The whole scan: on a non-empty input list it ends inside the first run of the
inner loop. -/
theorem dupOuter_cons (a : TransactionInput) (rest : List TransactionInput) :
    dupOuter (a :: rest) 0 =
      if rest.any (fun b => decide (a.UxOut = b.UxOut)) = true then
        LoopExit.returned "Duplicate spend"
      else LoopExit.panicked "index out of range" := by
  rw [dupOuter]
  have h := dupInner_eq (a :: rest) 0 (by simp) ((a :: rest).length - 1) 1 rfl
  simp only [List.drop_one, List.tail_cons, List.getElem_cons_zero] at h
  simp only [List.length_cons, Nat.zero_lt_succ, if_true, Nat.zero_add]
  rw [h]
  by_cases hany : rest.any (fun b => decide (a.UxOut = b.UxOut)) = true
  · simp only [hany, if_true]
  · simp only [hany, if_false, Bool.false_eq_true]

/-- The scan of an empty input list falls through. -/
theorem dupOuter_nil : dupOuter [] 0 = LoopExit.done := by
  rw [dupOuter]
  simp

end Lemmas

end Coin

namespace Coin

section VerifyLemmas

variable {Address SecKey PubKey : Type}

/-! ## The checks of `Verify` -/

/-- A transaction that passes the header-hash, no-inputs, no-outputs and
signature-count checks leaves `Verify` inside the duplicate-input scan. -/
theorem Verify_of_checks (E : Externals Address SecKey PubKey) (t : Transaction Address)
    (a : TransactionInput) (rest : List TransactionInput)
    (hh : hashInner E t = t.Header.Hash) (hin : t.In = a :: rest) (hout : t.Out ≠ [])
    (hs : t.Header.Sigs.length < MaxUint16) :
    Verify E t =
      if rest.any (fun b => decide (a.UxOut = b.UxOut)) = true then
        Outcome.ret (some "Duplicate spend")
      else Outcome.panic "index out of range" := by
  have hout' : t.Out.length ≠ 0 := fun h => hout (List.length_eq_zero.mp h)
  unfold Verify
  simp only [hh, ne_eq, not_true_eq_false, if_false, hin, List.length_cons, Nat.succ_ne_zero,
    hout', ge_iff_le, Nat.not_le.mpr hs, dupOuter_cons]
  by_cases hany : rest.any (fun b => decide (a.UxOut = b.UxOut)) = true
  · simp only [hany, if_true]
  · simp only [hany, if_false, Bool.false_eq_true]

/-- The number of appended placeholders: `growSigs` pads with `Sig{}` up to
position `idx`. -/
theorem growSigs_eq (idx : Nat) :
    ∀ (n : Nat) (sigs : List Sig), idx + 1 - sigs.length = n →
      growSigs sigs idx = sigs ++ List.replicate n (ByteArr.zero 65) := by
  intro n
  induction n with
  | zero =>
    intro sigs hn
    rw [growSigs]
    have : ¬ sigs.length ≤ idx := by omega
    simp [this]
  | succ n ih =>
    intro sigs hn
    rw [growSigs]
    have hle : sigs.length ≤ idx := by omega
    rw [if_pos hle, ih (sigs ++ [ByteArr.zero 65]) (by simp; omega)]
    simp [List.replicate_succ]

/-- The result of `growSigs` in closed form. -/
theorem growSigs_eq_append (sigs : List Sig) (idx : Nat) :
    growSigs sigs idx = sigs ++ List.replicate (idx + 1 - sigs.length) (ByteArr.zero 65) :=
  growSigs_eq idx (idx + 1 - sigs.length) sigs rfl

/-- The number of signatures of `withSigCount n`. -/
theorem withSigCount_length (n : Nat) : (withSigCount n).Header.Sigs.length = n :=
  List.length_replicate n (ByteArr.zero 65)

/-- Every outcome of `TransactionDeserialize` is a panic or the zero transaction. -/
theorem TransactionDeserialize_cases (E : Externals Address SecKey PubKey) (b : List Byte) :
    TransactionDeserialize E b = Outcome.panic "Failed to deserialize transaction" ∨
      TransactionDeserialize E b = Outcome.ret (Transaction.zero Address) := by
  unfold TransactionDeserialize
  cases h : E.DeserializeRaw b (Transaction.zero Address) with
  | none => exact Or.inr (by simp only [h])
  | some e => exact Or.inl (by simp only [h])

/-- Whatever the encoder and decoder are, `TransactionDeserialize` gives back no
transaction other than the zero value. -/
theorem TransactionDeserialize_ne_of_ne_zero (E : Externals Address SecKey PubKey)
    (t : Transaction Address) (ht : t ≠ Transaction.zero Address) :
    TransactionDeserialize E (Serialize E t) ≠ Outcome.ret t := by
  intro h
  rcases TransactionDeserialize_cases E (Serialize E t) with hp | hz
  · rw [hp] at h
    cases h
  · rw [hz] at h
    injection h with h1
    exact ht h1.symm

end VerifyLemmas

/-! ## Signing -/

section BuilderLemmas

variable {Address SecKey PubKey : Type}

/-- The inner hash depends on the inputs and outputs only. -/
theorem hashInner_congr (E : Externals Address SecKey PubKey) (t1 t : Transaction Address)
    (hin : t1.In = t.In) (hout : t1.Out = t.Out) : hashInner E t1 = hashInner E t := by
  unfold hashInner
  rw [hin, hout]

/-- The transaction `signInput` returns when nothing panics. -/
theorem signInput_ok (E : Externals Address SecKey PubKey) (t : Transaction Address)
    (idx : Nat) (sec : SecKey) (sig : Sig) (hlen : t.In.length ≤ 65535)
    (hidx : idx < t.In.length) (hsig : E.SignHash (hashInner E t) sec = Except.ok sig) :
    signInput E t idx sec =
      Outcome.ret { t with Header := { t.Header with
        Sigs := (t.Header.Sigs ++
          List.replicate (idx + 1 - t.Header.Sigs.length) (ByteArr.zero 65)).set idx sig } } := by
  have h1 : ¬ t.In.length > MaxUint16 := by
    unfold MaxUint16
    omega
  have h2 : ¬ idx ≥ t.In.length % 65536 := by
    rw [Nat.mod_eq_of_lt (by omega)]
    omega
  unfold signInput
  simp only [hsig, h1, h2, if_false, growSigs_eq_append]

/-- A call of `signInput` that returns has passed all three guards. -/
theorem signInput_ret (E : Externals Address SecKey PubKey) (t t1 : Transaction Address)
    (idx : Nat) (sec : SecKey) (h : signInput E t idx sec = Outcome.ret t1) :
    ∃ sig, E.SignHash (hashInner E t) sec = Except.ok sig ∧ t.In.length ≤ 65535 ∧
      idx < t.In.length ∧
      t1 = { t with Header := { t.Header with
        Sigs := (t.Header.Sigs ++
          List.replicate (idx + 1 - t.Header.Sigs.length) (ByteArr.zero 65)).set idx sig } } := by
  unfold signInput at h
  cases hs : E.SignHash (hashInner E t) sec with
  | error e =>
    simp only [hs] at h
    cases h
  | ok sig =>
    simp only [hs] at h
    by_cases h1 : t.In.length > MaxUint16
    · simp only [h1, if_true] at h
      cases h
    · by_cases h2 : idx ≥ t.In.length % 65536
      · simp only [h1, h2, if_true, if_false] at h
        cases h
      · simp only [h1, h2, if_false, growSigs_eq_append] at h
        have hle : t.In.length ≤ 65535 := by
          unfold MaxUint16 at h1
          omega
        have hlt : idx < t.In.length := by
          rw [Nat.mod_eq_of_lt (by omega)] at h2
          omega
        injection h with h
        exact ⟨sig, rfl, hle, hlt, h.symm⟩

/-- Whatever `SignInputs` still has to sign, a run of its loop that returns leaves
inputs, outputs and header hash alone and keeps the signatures no more numerous
than the inputs. -/
theorem signInputsLoop_ret (E : Externals Address SecKey PubKey) (keys : Nat → SecKey) :
    ∀ (rest : List TransactionInput) (t t1 : Transaction Address),
      signInputsLoop E keys rest t = Outcome.ret t1 →
        t1.In = t.In ∧ t1.Out = t.Out ∧ t1.Header.Hash = t.Header.Hash ∧
          (t.Header.Sigs.length ≤ t.In.length → t1.Header.Sigs.length ≤ t.In.length) := by
  intro rest
  induction rest with
  | nil =>
    intro t t1 h
    simp only [signInputsLoop] at h
    injection h with h
    subst h
    exact ⟨rfl, rfl, rfl, fun hle => hle⟩
  | cons ti rest ih =>
    intro t t1 h
    simp only [signInputsLoop] at h
    cases hs : signInput E t ti.SigIdx (keys ti.SigIdx) with
    | panic msg =>
      simp only [hs] at h
      cases h
    | ret t2 =>
      simp only [hs] at h
      obtain ⟨sig, _, _, hidx, ht2⟩ := signInput_ret E t t2 ti.SigIdx (keys ti.SigIdx) hs
      obtain ⟨hin, hout, hhash, hlen⟩ := ih t2 t1 h
      subst ht2
      refine ⟨hin, hout, hhash, fun hle => ?_⟩
      apply hlen
      simp only [List.length_set, List.length_append, List.length_replicate]
      omega

/-- Setting the last element of a list extended by one. -/
theorem set_append_singleton {α : Type} (l : List α) (z x : α) :
    (l ++ [z]).set l.length x = l ++ [x] := by
  induction l with
  | nil => rfl
  | cons a l ih => simp [ih]

/-- The loop of `SignInputs` over inputs whose `SigIdx` continue the signatures
already present: each step appends the signature of the inner hash by the key of
that index. -/
theorem signInputsLoop_spec (E : Externals Address SecKey PubKey) (keys : Nat → SecKey)
    (sg : Nat → Sig) :
    ∀ (rest : List TransactionInput) (k : Nat) (t : Transaction Address),
      k + rest.length = t.In.length → t.In.length ≤ 65535 →
      (∀ j (h : j < rest.length), rest[j].SigIdx = k + j) →
      t.Header.Sigs.length = k →
      (∀ i, i < t.In.length → E.SignHash (hashInner E t) (keys i) = Except.ok (sg i)) →
      signInputsLoop E keys rest t =
        Outcome.ret { t with Header := { t.Header with
          Sigs := t.Header.Sigs ++ (List.range' k rest.length).map sg } } := by
  intro rest
  induction rest with
  | nil =>
    intro k t _ _ _ _ _
    simp [signInputsLoop]
  | cons ti rest ih =>
    intro k t hk hlen hidx hsigs hsign
    have hti : ti.SigIdx = k := by
      have := hidx 0 (by simp)
      simpa using this
    have hklt : k < t.In.length := by
      simp only [List.length_cons] at hk
      omega
    have hstep := signInput_ok E t k (keys k) (sg k) hlen hklt (hsign k hklt)
    have hone : k + 1 - t.Header.Sigs.length = 1 := by omega
    rw [hone] at hstep
    have hset : (t.Header.Sigs ++ List.replicate 1 (ByteArr.zero 65)).set k (sg k) =
        t.Header.Sigs ++ [sg k] := by
      rw [← hsigs]
      exact set_append_singleton t.Header.Sigs (ByteArr.zero 65) (sg t.Header.Sigs.length)
    rw [hset] at hstep
    simp only [signInputsLoop, hti, hstep]
    have hk1 : k + 1 + rest.length = t.In.length := by
      simp only [List.length_cons] at hk
      omega
    have hidx1 : ∀ j (h : j < rest.length), rest[j].SigIdx = k + 1 + j := by
      intro j h
      have := hidx (j + 1) (by simp only [List.length_cons]; omega)
      simp only [List.getElem_cons_succ] at this
      omega
    have hnext := ih (k + 1)
      { Header := { Hash := t.Header.Hash, Sigs := t.Header.Sigs ++ [sg k] },
        In := t.In, Out := t.Out }
      hk1 hlen hidx1 (by simp [hsigs])
      (fun i hi => hsign i hi)
    rw [hnext]
    simp [List.range'_succ]

/-- The result of `SignInputs` on a transaction without signatures whose inputs
carry their own position as `SigIdx`, when every signing succeeds. -/
theorem SignInputs_spec (E : Externals Address SecKey PubKey) (keys : Nat → SecKey)
    (sg : Nat → Sig) (t : Transaction Address)
    (hidx : ∀ i (h : i < t.In.length), t.In[i].SigIdx = i) (hlen : t.In.length ≤ 65535)
    (hnone : t.Header.Sigs = [])
    (hsign : ∀ i, i < t.In.length → E.SignHash (hashInner E t) (keys i) = Except.ok (sg i)) :
    SignInputs E t keys =
      Outcome.ret { t with Header := { t.Header with
        Sigs := (List.range t.In.length).map sg } } := by
  unfold SignInputs
  rw [signInputsLoop_spec E keys sg t.In 0 t (by simp) hlen
    (fun j h => by simpa using hidx j h) (by simp [hnone]) hsign]
  simp [hnone, List.range_eq_range']

/-! ## Pushing inputs -/

/-- Below the ceiling `PushInput` appends the input numbered with its position. -/
theorem PushInput_ok (t : Transaction Address) (h : SHA256) (hlt : t.In.length < 65535) :
    PushInput t h =
      Outcome.ret ({ t with In := t.In ++ [{ SigIdx := t.In.length, UxOut := h }] },
        t.In.length) := by
  have hge : ¬ t.In.length ≥ MaxUint16 := by
    unfold MaxUint16
    omega
  unfold PushInput
  simp only [hge, if_false, Nat.mod_eq_of_lt (show t.In.length < 65536 by omega)]

/-- At the ceiling `PushInput` panics. -/
theorem PushInput_panic (t : Transaction Address) (h : SHA256) (hge : 65535 ≤ t.In.length) :
    PushInput t h = Outcome.panic "Max transaction inputs reached" := by
  have hge1 : t.In.length ≥ MaxUint16 := hge
  unfold PushInput
  simp only [hge1, if_true]

/-- Appending the input numbered with its position keeps the numbering. -/
theorem seqIdx_append (ins : List TransactionInput) (h : SHA256)
    (hidx : ∀ i (hi : i < ins.length), ins[i].SigIdx = i) :
    ∀ i (hi : i < (ins ++ [({ SigIdx := ins.length, UxOut := h } : TransactionInput)]).length),
      (ins ++ [({ SigIdx := ins.length, UxOut := h } : TransactionInput)])[i].SigIdx = i := by
  intro i hi
  by_cases hlt : i < ins.length
  · rw [List.getElem_append_left hlt]
    exact hidx i hlt
  · have heq : i = ins.length := by
      simp only [List.length_append, List.length_singleton] at hi
      omega
    subst heq
    simp

/-- The invariant of the builder holds of the empty transaction. -/
theorem BuilderInv_zero : BuilderInv (Transaction.zero Address) := by
  refine ⟨?_, ?_, ?_⟩
  · intro i h
    simp [Transaction.zero] at h
  · simp [Transaction.zero]
  · simp [Transaction.zero]

/-- Every builder call that returns keeps the invariant. -/
theorem BuilderInv_runCall (E : Externals Address SecKey PubKey) (t t1 : Transaction Address)
    (c : BuilderCall Address SecKey) (hinv : BuilderInv t)
    (hrun : runCall E t c = Outcome.ret t1) : BuilderInv t1 := by
  obtain ⟨hidx, hlen, hsigs⟩ := hinv
  cases c with
  | pushInput h =>
    simp only [runCall] at hrun
    by_cases hlt : t.In.length < 65535
    · rw [PushInput_ok t h hlt] at hrun
      injection hrun with hrun
      subst hrun
      refine ⟨seqIdx_append t.In h hidx, ?_, ?_⟩
      · simp only [List.length_append, List.length_singleton]
        omega
      · simp only [List.length_append, List.length_singleton]
        omega
    · rw [PushInput_panic t h (by omega)] at hrun
      cases hrun
  | pushOutput dst coins hours =>
    simp only [runCall] at hrun
    injection hrun with hrun
    subst hrun
    exact ⟨hidx, hlen, hsigs⟩
  | updateHeader =>
    simp only [runCall] at hrun
    injection hrun with hrun
    subst hrun
    exact ⟨hidx, hlen, hsigs⟩
  | signInputs keys =>
    simp only [runCall, SignInputs] at hrun
    obtain ⟨hin, _, _, hle⟩ := signInputsLoop_ret E keys t.In t t1 hrun
    refine ⟨?_, ?_, ?_⟩
    · rw [hin]
      exact hidx
    · rw [hin]
      exact hlen
    · rw [hin]
      exact hle hsigs

/-- Every sequence of builder calls that returns keeps the invariant. -/
theorem BuilderInv_runCalls (E : Externals Address SecKey PubKey) :
    ∀ (cs : List (BuilderCall Address SecKey)) (t t1 : Transaction Address),
      BuilderInv t → runCalls E cs t = Outcome.ret t1 → BuilderInv t1 := by
  intro cs
  induction cs with
  | nil =>
    intro t t1 hinv hrun
    simp only [runCalls] at hrun
    injection hrun with hrun
    subst hrun
    exact hinv
  | cons c cs ih =>
    intro t t1 hinv hrun
    simp only [runCalls] at hrun
    cases hc : runCall E t c with
    | panic msg =>
      simp only [hc] at hrun
      cases hrun
    | ret t2 =>
      simp only [hc] at hrun
      exact ih t2 t1 (BuilderInv_runCall E t t2 c hinv hc) hrun

/-- Pushing inputs below the ceiling returns: the inputs are appended in order with
their positions as `SigIdx`, and nothing else changes. -/
theorem pushInputs_ok :
    ∀ (hs : List SHA256) (t : Transaction Address), t.In.length + hs.length ≤ 65535 →
      ∃ t1 : Transaction Address, pushInputs hs t = Outcome.ret t1 ∧
        t1.In.length = t.In.length + hs.length ∧ t1.Out = t.Out ∧ t1.Header = t.Header ∧
        ((∀ i (h : i < t.In.length), t.In[i].SigIdx = i) →
          ∀ i (h : i < t1.In.length), t1.In[i].SigIdx = i) := by
  intro hs
  induction hs with
  | nil =>
    intro t _
    exact ⟨t, rfl, by simp, rfl, rfl, fun h => h⟩
  | cons h hs ih =>
    intro t hle
    simp only [List.length_cons] at hle
    have hlt : t.In.length < 65535 := by omega
    obtain ⟨t1, hrun, hlen, hout, hhdr, hidx⟩ :=
      ih { t with In := t.In ++ [{ SigIdx := t.In.length, UxOut := h }] }
        (by simp only [List.length_append, List.length_singleton]; omega)
    refine ⟨t1, ?_, ?_, hout, hhdr, ?_⟩
    · simp only [pushInputs, PushInput_ok t h hlt]
      exact hrun
    · simp only [List.length_append, List.length_singleton] at hlen
      simp only [List.length_cons]
      omega
    · intro h0
      exact hidx (seqIdx_append t.In h h0)

/-- Pushing inputs past the ceiling panics. -/
theorem pushInputs_panic :
    ∀ (hs : List SHA256) (t : Transaction Address), 65535 < t.In.length + hs.length →
      t.In.length ≤ 65535 →
      pushInputs hs t = Outcome.panic "Max transaction inputs reached" := by
  intro hs
  induction hs with
  | nil =>
    intro t hgt hle
    simp only [List.length_nil] at hgt
    omega
  | cons h hs ih =>
    intro t hgt hle
    simp only [List.length_cons] at hgt
    by_cases hlt : t.In.length < 65535
    · simp only [pushInputs, PushInput_ok t h hlt]
      apply ih
      · simp only [List.length_append, List.length_singleton]
        omega
      · simp only [List.length_append, List.length_singleton]
        omega
    · simp only [pushInputs, PushInput_panic t h (by omega)]

end BuilderLemmas

/-! ## The outcomes of `Verify`, and the ordering -/

section OrderLemmas

variable {Address SecKey PubKey : Type}

/-- The first check of `Verify`. -/
theorem Verify_of_hash_ne (E : Externals Address SecKey PubKey) (t : Transaction Address)
    (h : hashInner E t ≠ t.Header.Hash) :
    Verify E t = Outcome.ret (some "Invalid header hash") := by
  unfold Verify
  simp only [h, ne_eq, not_false_eq_true, if_true]

/-- The second check of `Verify`. -/
theorem Verify_of_no_inputs (E : Externals Address SecKey PubKey) (t : Transaction Address)
    (hh : hashInner E t = t.Header.Hash) (hin : t.In = []) :
    Verify E t = Outcome.ret (some "No inputs") := by
  unfold Verify
  simp only [hh, ne_eq, not_true_eq_false, if_false, hin, List.length_nil, if_true]

/-- The third check of `Verify`. -/
theorem Verify_of_no_outputs (E : Externals Address SecKey PubKey) (t : Transaction Address)
    (hh : hashInner E t = t.Header.Hash) (hin : t.In ≠ []) (hout : t.Out = []) :
    Verify E t = Outcome.ret (some "No outputs") := by
  have hin1 : t.In.length ≠ 0 := fun h => hin (List.length_eq_zero.mp h)
  unfold Verify
  simp only [hh, ne_eq, not_true_eq_false, if_false, hin1, hout, List.length_nil, if_true]

/-- The fourth check of `Verify`. -/
theorem Verify_of_sig_count (E : Externals Address SecKey PubKey) (t : Transaction Address)
    (hh : hashInner E t = t.Header.Hash) (hin : t.In ≠ []) (hout : t.Out ≠ [])
    (hs : 65535 ≤ t.Header.Sigs.length) :
    Verify E t = Outcome.ret (some "signatures count exceeds uint16") := by
  have hin1 : t.In.length ≠ 0 := fun h => hin (List.length_eq_zero.mp h)
  have hout1 : t.Out.length ≠ 0 := fun h => hout (List.length_eq_zero.mp h)
  have hs1 : t.Header.Sigs.length ≥ MaxUint16 := hs
  unfold Verify
  simp only [hh, ne_eq, not_true_eq_false, if_false, hin1, hout1, hs1, if_true]

/-- All the ways `Verify` ends: at one of its first four checks, or inside the
duplicate-input scan. -/
theorem Verify_eq_cases (E : Externals Address SecKey PubKey) (t : Transaction Address) :
    Verify E t = Outcome.ret (some "Invalid header hash") ∨
      Verify E t = Outcome.ret (some "No inputs") ∨
      Verify E t = Outcome.ret (some "No outputs") ∨
      Verify E t = Outcome.ret (some "signatures count exceeds uint16") ∨
      Verify E t = Outcome.ret (some "Duplicate spend") ∨
      Verify E t = Outcome.panic "index out of range" := by
  by_cases hh : hashInner E t = t.Header.Hash
  · by_cases hin : t.In = []
    · exact Or.inr (Or.inl (Verify_of_no_inputs E t hh hin))
    · by_cases hout : t.Out = []
      · exact Or.inr (Or.inr (Or.inl (Verify_of_no_outputs E t hh hin hout)))
      · by_cases hs : 65535 ≤ t.Header.Sigs.length
        · exact Or.inr (Or.inr (Or.inr (Or.inl (Verify_of_sig_count E t hh hin hout hs))))
        · obtain ⟨a, rest, hcons⟩ := List.exists_cons_of_ne_nil hin
          have hv := Verify_of_checks E t a rest hh hcons hout (Nat.not_le.mp hs)
          by_cases hany : rest.any (fun b => decide (a.UxOut = b.UxOut)) = true
          · rw [if_pos hany] at hv
            exact Or.inr (Or.inr (Or.inr (Or.inr (Or.inl hv))))
          · rw [if_neg hany] at hv
            exact Or.inr (Or.inr (Or.inr (Or.inr (Or.inr hv))))
  · exact Or.inl (Verify_of_hash_ne E t hh)

/-- The result of `bytes.Compare` is negative exactly when the first sequence is
lexicographically smaller than the second. -/
theorem bytesCompare_neg_iff :
    ∀ (a b : List Byte), bytesCompare a b < 0 ↔ List.Lex (fun x y => x < y) a b := by
  intro a
  induction a with
  | nil =>
    intro b
    cases b with
    | nil => simp [bytesCompare, List.Lex.not_nil_right]
    | cons y ys => simp [bytesCompare, List.Lex.nil]
  | cons x xs ih =>
    intro b
    cases b with
    | nil => simp [bytesCompare, List.Lex.not_nil_right]
    | cons y ys =>
      simp only [bytesCompare]
      by_cases hxy : x < y
      · simp only [hxy, if_true]
        exact ⟨fun _ => List.Lex.rel hxy, fun _ => by decide⟩
      · by_cases hyx : y < x
        · simp only [hxy, hyx, if_true, if_false]
          constructor
          · intro h
            exact absurd h (by decide)
          · intro h
            cases h with
            | cons h1 => exact absurd hyx (lt_irrefl _)
            | rel h1 => exact absurd h1 hxy
        · have hEq : x = y := le_antisymm (not_lt.mp hyx) (not_lt.mp hxy)
          subst hEq
          simp only [hxy, if_false]
          rw [ih ys]
          exact (List.Lex.cons_iff).symm

/-- At valid indices `Less` compares the two stored header hashes
lexicographically. -/
theorem Less_eq (self : List (Transaction Address)) (i j : Nat) (hi : i < self.length)
    (hj : j < self.length) :
    Less self i j =
      Outcome.ret (decide (List.Lex (fun x y => x < y) self[i].Header.Hash.val
        self[j].Header.Hash.val)) := by
  unfold Less
  simp only [List.getElem?_eq_getElem hi, List.getElem?_eq_getElem hj]
  congr 1
  exact decide_eq_decide.mpr (bytesCompare_neg_iff _ _)

/-- At valid indices `Swap` returns the slice with the two elements exchanged. -/
theorem Swap_eq (self : List (Transaction Address)) (i j : Nat) (hi : i < self.length)
    (hj : j < self.length) :
    Swap self i j = Outcome.ret ((self.set i self[j]).set j self[i]) := by
  unfold Swap
  simp only [List.getElem?_eq_getElem hi, List.getElem?_eq_getElem hj]

/-- A transaction whose header hash matches is not rejected for its header hash. -/
theorem Verify_ne_invalid_of_hash_eq (E : Externals Address SecKey PubKey)
    (t : Transaction Address) (hh : hashInner E t = t.Header.Hash) :
    Verify E t ≠ Outcome.ret (some "Invalid header hash") := by
  by_cases hin : t.In = []
  · rw [Verify_of_no_inputs E t hh hin]
    decide
  · by_cases hout : t.Out = []
    · rw [Verify_of_no_outputs E t hh hin hout]
      decide
    · by_cases hs : 65535 ≤ t.Header.Sigs.length
      · rw [Verify_of_sig_count E t hh hin hout hs]
        decide
      · obtain ⟨a, rest, hcons⟩ := List.exists_cons_of_ne_nil hin
        rw [Verify_of_checks E t a rest hh hcons hout (Nat.not_le.mp hs)]
        by_cases hany : rest.any (fun b => decide (a.UxOut = b.UxOut)) = true
        · rw [if_pos hany]
          decide
        · rw [if_neg hany]
          intro h
          cases h

/-- The signature-count error is returned only with at least 65535 signatures. -/
theorem Verify_sig_count_only (E : Externals Address SecKey PubKey) (t : Transaction Address)
    (hv : Verify E t = Outcome.ret (some "signatures count exceeds uint16")) :
    65535 ≤ t.Header.Sigs.length := by
  by_contra hs
  by_cases hh : hashInner E t = t.Header.Hash
  · by_cases hin : t.In = []
    · rw [Verify_of_no_inputs E t hh hin] at hv
      exact absurd hv (by decide)
    · by_cases hout : t.Out = []
      · rw [Verify_of_no_outputs E t hh hin hout] at hv
        exact absurd hv (by decide)
      · obtain ⟨a, rest, hcons⟩ := List.exists_cons_of_ne_nil hin
        rw [Verify_of_checks E t a rest hh hcons hout (Nat.not_le.mp hs)] at hv
        by_cases hany : rest.any (fun b => decide (a.UxOut = b.UxOut)) = true
        · rw [if_pos hany] at hv
          exact absurd hv (by decide)
        · rw [if_neg hany] at hv
          cases hv
  · rw [Verify_of_hash_ne E t hh] at hv
    exact absurd hv (by decide)

/-- Signing one input commutes with `UpdateHeader`. -/
theorem signInput_UpdateHeader (E : Externals Address SecKey PubKey)
    (t t1 : Transaction Address) (idx : Nat) (sec : SecKey)
    (h : signInput E t idx sec = Outcome.ret t1) :
    signInput E (UpdateHeader E t) idx sec = Outcome.ret (UpdateHeader E t1) := by
  obtain ⟨sig, hs, hlen, hidx, ht1⟩ := signInput_ret E t t1 idx sec h
  subst ht1
  rw [signInput_ok E (UpdateHeader E t) idx sec sig hlen hidx hs]
  rfl

/-- The loop of `SignInputs` commutes with `UpdateHeader`. -/
theorem signInputsLoop_UpdateHeader (E : Externals Address SecKey PubKey)
    (keys : Nat → SecKey) :
    ∀ (rest : List TransactionInput) (t t1 : Transaction Address),
      signInputsLoop E keys rest t = Outcome.ret t1 →
        signInputsLoop E keys rest (UpdateHeader E t) = Outcome.ret (UpdateHeader E t1) := by
  intro rest
  induction rest with
  | nil =>
    intro t t1 h
    simp only [signInputsLoop] at h
    injection h with h
    subst h
    rfl
  | cons ti rest ih =>
    intro t t1 h
    simp only [signInputsLoop] at h
    cases hs : signInput E t ti.SigIdx (keys ti.SigIdx) with
    | panic msg =>
      simp only [hs] at h
      cases h
    | ret t2 =>
      simp only [hs] at h
      simp only [signInputsLoop, signInput_UpdateHeader E t t2 ti.SigIdx (keys ti.SigIdx) hs]
      exact ih t2 t1 h

/-- The loop that collects the output identifiers, with any start value. -/
theorem foldl_append_singleton {α β : Type} (f : α → β) :
    ∀ (l : List α) (acc : List β),
      l.foldl (fun outputs x => outputs ++ [f x]) acc = acc ++ l.map f := by
  intro l
  induction l with
  | nil =>
    intro acc
    simp
  | cons x l ih =>
    intro acc
    simp [ih]

set_option maxRecDepth 8000 in
/-- The four calls of the end-to-end scenario build `signedTxn`. -/
theorem sampleCalls_run :
    runCalls sampleExternals sampleCalls (Transaction.zero Nat) = Outcome.ret signedTxn := by
  have hpush : PushInput (Transaction.zero Nat) (hashOf 1) =
      Outcome.ret
        (({ Header := { Hash := ByteArr.zero 32, Sigs := [] },
            In := [{ SigIdx := 0, UxOut := hashOf 1 }],
            Out := [] } : Transaction Nat), 0) := by
    decide
  simp only [sampleCalls, runCalls, runCall, hpush, SignInputs, UpdateHeader, PushOutput,
    List.nil_append, signInputsLoop, signInput, growSigs_eq_append]
  decide

/-- The loop over the outputs gives, in order, the hash of the `UxOut` made of
the stored `Header.Hash` and the address, coins and hours of each output. -/
theorem outputHashes_eq_map (E : Externals Address SecKey PubKey)
    (t : Transaction Address) :
    outputHashes E t =
      t.Out.map (fun txo =>
        E.uxOutHash
          { SrcTransaction := t.Header.Hash, Address := txo.DestinationAddress,
            Coins := txo.Coins, Hours := txo.Hours }) := by
  unfold outputHashes
  rw [foldl_append_singleton]
  simp

/-- The duplicate-input scan never falls through on a non-empty `In`. -/
theorem dupOuter_ne_done (ins : List TransactionInput) (h : ins ≠ []) :
    dupOuter ins 0 ≠ LoopExit.done := by
  obtain ⟨a, rest, hcons⟩ := List.exists_cons_of_ne_nil h
  rw [hcons, dupOuter_cons]
  split <;> exact fun h => LoopExit.noConfusion h

/-- The result that `VerifyWithOutputs` gives is the one of `Verify`, and the
test of line 103 is reached for no transaction: `outputs` is never put to use. -/
theorem VerifyWithOutputs_eq (E : Externals Address SecKey PubKey)
    (t : Transaction Address) :
    VerifyWithOutputs E t = (Verify E t, none) := by
  unfold VerifyWithOutputs Verify
  by_cases hh : hashInner E t = t.Header.Hash
  · by_cases hin : t.In.length = 0
    · simp [hh, hin]
    · by_cases hout : t.Out.length = 0
      · simp [hh, hin, hout]
      · by_cases hs : t.Header.Sigs.length ≥ MaxUint16
        · simp [hh, hin, hout, hs]
        · have hne : t.In ≠ [] := fun h => hin (by rw [h]; rfl)
          have hd := dupOuter_ne_done t.In hne
          simp only [hh, ne_eq, not_true_eq_false, if_false, hin, hout, hs]
          cases hcase : dupOuter t.In 0 with
          | done => exact absurd hcase hd
          | returned err => rfl
          | panicked msg => rfl
  · simp [hh]

end OrderLemmas

/-! ## Claims -/

section Claims

variable {Address SecKey PubKey : Type}

set_option maxRecDepth 8000 in
/-- C1: the transaction `dupLaterTxn` passes the header-hash, no-inputs, no-outputs
and signature-count checks and its inputs at positions 1 and 2 have the same
`UxOut`, yet `Verify` does not return "Duplicate spend": it panics with an index
out of range, because the inner loop of the scan tests `i` and never leaves the
row of input 0. -/
theorem Verify_dupLaterTxn_panics :
    hashInner sampleExternals dupLaterTxn = dupLaterTxn.Header.Hash ∧
      dupLaterTxn.In.length = 3 ∧ dupLaterTxn.Out ≠ [] ∧
      dupLaterTxn.Header.Sigs.length < MaxUint16 ∧
      (dupLaterTxn.In.map TransactionInput.UxOut)[1]? =
        (dupLaterTxn.In.map TransactionInput.UxOut)[2]? ∧
      Verify sampleExternals dupLaterTxn = Outcome.panic "index out of range" :=
  ⟨by decide, by decide, by decide, by decide, by decide,
    (Verify_of_checks sampleExternals dupLaterTxn { SigIdx := 0, UxOut := hashOf 1 }
      [{ SigIdx := 1, UxOut := hashOf 2 }, { SigIdx := 2, UxOut := hashOf 2 }]
      (by decide) rfl (by decide) (by decide)).trans (by decide)⟩

set_option maxRecDepth 8000 in
/-- C2: `Verify` panics on the well-formed transaction `twoInputTxn` (two distinct
inputs, one output, a signature for each input, a matching header hash): the scan
of the inputs reads `In[2]`, past the end of the slice. -/
theorem Verify_twoInputTxn_panics :
    Verify sampleExternals twoInputTxn = Outcome.panic "index out of range" ∧
      (∀ r, Verify sampleExternals twoInputTxn ≠ Outcome.ret r) := by
  have h : Verify sampleExternals twoInputTxn = Outcome.panic "index out of range" :=
    (Verify_of_checks sampleExternals twoInputTxn { SigIdx := 0, UxOut := hashOf 1 }
      [{ SigIdx := 1, UxOut := hashOf 2 }] (by decide) rfl (by decide) (by decide)).trans
      (by decide)
  refine ⟨h, ?_⟩
  intro r hr
  rw [h] at hr
  cases hr

set_option maxRecDepth 8000 in
/-- C3: the end-to-end scenario. `PushInput (hashOf 1)`, `PushOutput (7, 100, 10)`,
`UpdateHeader` and `signInput 0 5` build `signedTxn` without a panic, the header
hash of `signedTxn` matches, and the signature loop of `Verify` would accept it;
yet `Verify` does not return `nil`: it panics with an index out of range in the
duplicate-input scan. -/
theorem Verify_signedTxn_panics :
    buildOneInOneOut sampleExternals (hashOf 1) 7 5 = Outcome.ret signedTxn ∧
      hashInner sampleExternals signedTxn = signedTxn.Header.Hash ∧
      verifySigs sampleExternals signedTxn signedTxn.In = Outcome.ret none ∧
      Verify sampleExternals signedTxn = Outcome.panic "index out of range" := by
  refine ⟨?_, by decide, by decide, ?_⟩
  · simp only [buildOneInOneOut, signInput, growSigs_eq_append]
    decide
  · exact (Verify_of_checks sampleExternals signedTxn { SigIdx := 0, UxOut := hashOf 1 } []
      (by decide) rfl (by decide) (by decide)).trans (by decide)

/-- C4: a transaction whose stored header hash differs from the digest of its
encoded inputs followed by its encoded outputs is rejected by `Verify` with
"Invalid header hash", whatever its inputs, outputs and signatures are. -/
theorem Verify_invalid_header_hash (E : Externals Address SecKey PubKey)
    (t : Transaction Address)
    (h : t.Header.Hash ≠ E.SumSHA256 (E.serializeIn t.In ++ E.serializeOut t.Out)) :
    Verify E t = Outcome.ret (some "Invalid header hash") := by
  have h1 : hashInner E t ≠ t.Header.Hash := fun e => h (by rw [← e]; rfl)
  unfold Verify
  simp only [h1, ne_eq, not_false_eq_true, if_true]

/-- Witness of C4: `tamperedTxn` is the signed transaction of the end-to-end
scenario with its coins changed from 100 to 101 and no `UpdateHeader`. -/
theorem Verify_invalid_header_hash_witness :
    tamperedTxn.Header.Hash = signedTxn.Header.Hash ∧
      tamperedTxn.Header.Hash ≠
        sampleExternals.SumSHA256
          (sampleExternals.serializeIn tamperedTxn.In ++
            sampleExternals.serializeOut tamperedTxn.Out) ∧
      Verify sampleExternals tamperedTxn = Outcome.ret (some "Invalid header hash") :=
  ⟨rfl, by decide, Verify_invalid_header_hash sampleExternals tamperedTxn (by decide)⟩

/-- C5: with a matching header hash, `Verify` returns "No inputs" when `In` is
empty (also when `Out` is empty too) and "No outputs" when `In` is non-empty and
`Out` is empty. -/
theorem Verify_check_order (E : Externals Address SecKey PubKey) (t : Transaction Address)
    (hh : hashInner E t = t.Header.Hash) :
    (t.In = [] → Verify E t = Outcome.ret (some "No inputs")) ∧
      (t.In ≠ [] → t.Out = [] → Verify E t = Outcome.ret (some "No outputs")) := by
  constructor
  · intro hin
    unfold Verify
    simp only [hh, ne_eq, not_true_eq_false, if_false, hin, List.length_nil, if_true]
  · intro hin hout
    have hin' : t.In.length ≠ 0 := fun h => hin (List.length_eq_zero.mp h)
    unfold Verify
    simp only [hh, ne_eq, not_true_eq_false, if_false, hin', hout, List.length_nil, if_true]

/-- Witness of C5: `noInOutTxn` has neither inputs nor outputs, `noOutTxn` has one
input and no outputs; both carry their inner hash. -/
theorem Verify_check_order_witness :
    (noInOutTxn.In = [] ∧ noInOutTxn.Out = [] ∧
        Verify sampleExternals noInOutTxn = Outcome.ret (some "No inputs")) ∧
      (noOutTxn.In ≠ [] ∧ noOutTxn.Out = [] ∧
        Verify sampleExternals noOutTxn = Outcome.ret (some "No outputs")) :=
  ⟨⟨rfl, rfl, (Verify_check_order sampleExternals noInOutTxn (by decide)).1 rfl⟩,
    ⟨by decide, rfl,
      (Verify_check_order sampleExternals noOutTxn (by decide)).2 (by decide) rfl⟩⟩

/-- C6: for a transaction that passes the header-hash, no-inputs and no-outputs
checks, `Verify` returns "signatures count exceeds uint16" if and only if it has
at least 65535 signatures; with 65534 signatures it does not return this error. -/
theorem Verify_signature_bound (E : Externals Address SecKey PubKey) (t : Transaction Address)
    (hh : hashInner E t = t.Header.Hash) (hin : t.In ≠ []) (hout : t.Out ≠ []) :
    (Verify E t = Outcome.ret (some "signatures count exceeds uint16") ↔
        65535 ≤ t.Header.Sigs.length) ∧
      (t.Header.Sigs.length = 65534 →
        Verify E t ≠ Outcome.ret (some "signatures count exceeds uint16")) := by
  have hin' : t.In.length ≠ 0 := fun h => hin (List.length_eq_zero.mp h)
  have hout' : t.Out.length ≠ 0 := fun h => hout (List.length_eq_zero.mp h)
  have key : Verify E t = Outcome.ret (some "signatures count exceeds uint16") ↔
      65535 ≤ t.Header.Sigs.length := by
    constructor
    · intro hv
      by_contra hlt
      have hs : t.Header.Sigs.length < MaxUint16 := Nat.not_le.mp hlt
      obtain ⟨a, rest, hcons⟩ := List.exists_cons_of_ne_nil hin
      rw [Verify_of_checks E t a rest hh hcons hout hs] at hv
      by_cases hany : rest.any (fun b => decide (a.UxOut = b.UxOut)) = true
      · rw [if_pos hany] at hv
        exact absurd hv (by decide)
      · rw [if_neg hany] at hv
        cases hv
    · intro hge
      have hge' : t.Header.Sigs.length ≥ MaxUint16 := hge
      unfold Verify
      simp only [hh, ne_eq, not_true_eq_false, if_false, hin', hout', hge', if_true]
  refine ⟨key, ?_⟩
  intro h65534 hv
  have := key.mp hv
  omega

/-- Witness of C6: the signed transaction of the end-to-end scenario carrying
65535 and 65534 signatures. -/
theorem Verify_signature_bound_witness :
    ((withSigCount 65535).Header.Sigs.length = 65535 ∧
        Verify sampleExternals (withSigCount 65535) =
          Outcome.ret (some "signatures count exceeds uint16")) ∧
      ((withSigCount 65534).Header.Sigs.length = 65534 ∧
        Verify sampleExternals (withSigCount 65534) ≠
          Outcome.ret (some "signatures count exceeds uint16")) :=
  ⟨⟨withSigCount_length 65535,
      (Verify_signature_bound sampleExternals (withSigCount 65535) (by decide) (by decide)
        (by decide)).1.mpr (Nat.le_of_eq (withSigCount_length 65535).symm)⟩,
    ⟨withSigCount_length 65534,
      (Verify_signature_bound sampleExternals (withSigCount 65534) (by decide) (by decide)
        (by decide)).2 (withSigCount_length 65534)⟩⟩

set_option maxRecDepth 8000 in
/-- C7: the transaction `dupOutTxn` has a matching header hash, one input, one
signature and two outputs with identical address, coins and hours, whose computed
identifiers collide; yet `Verify` does not return "Duplicate output in
transaction": it panics in the duplicate-input scan before the outputs are looked
at. -/
theorem Verify_dupOutTxn_panics :
    hashInner sampleExternals dupOutTxn = dupOutTxn.Header.Hash ∧
      dupOutTxn.In.length = 1 ∧
      dupOutTxn.Out =
        [{ DestinationAddress := 7, Coins := 100, Hours := 10 },
          { DestinationAddress := 7, Coins := 100, Hours := 10 }] ∧
      HashArrayHasDupes (outputHashes sampleExternals dupOutTxn) = true ∧
      Verify sampleExternals dupOutTxn = Outcome.panic "index out of range" :=
  ⟨by decide, by decide, rfl, by decide,
    (Verify_of_checks sampleExternals dupOutTxn { SigIdx := 0, UxOut := hashOf 1 } []
      (by decide) rfl (by decide) (by decide)).trans (by decide)⟩

set_option maxRecDepth 8000 in
/-- C8: deserializing the serialization of `signedTxn` does not give `signedTxn`
back: the decoder accepts the bytes, and `TransactionDeserialize` returns the zero
transaction, whose inputs, outputs and signatures are empty. -/
theorem TransactionDeserialize_Serialize_signedTxn :
    TransactionDeserialize sampleExternals (Serialize sampleExternals signedTxn) =
        Outcome.ret (Transaction.zero Nat) ∧
      TransactionDeserialize sampleExternals (Serialize sampleExternals signedTxn) ≠
        Outcome.ret signedTxn ∧
      signedTxn.In ≠ (Transaction.zero Nat).In := by
  have h : TransactionDeserialize sampleExternals (Serialize sampleExternals signedTxn) =
      Outcome.ret (Transaction.zero Nat) := by decide
  refine ⟨h, ?_, by decide⟩
  rw [h]
  decide

/-- C9, as stated, fails: on the empty byte sequence the decoder reports an error
and `TransactionDeserialize` panics instead of returning to its caller. -/
theorem TransactionDeserialize_panics_on_empty :
    sampleExternals.DeserializeRaw [] (Transaction.zero Nat) = some "not enough buffer data" ∧
      TransactionDeserialize sampleExternals [] =
        Outcome.panic "Failed to deserialize transaction" ∧
      ¬ ∃ t, TransactionDeserialize sampleExternals [] = Outcome.ret t := by
  refine ⟨by decide, by decide, ?_⟩
  rintro ⟨t, ht⟩
  have h : TransactionDeserialize sampleExternals [] =
      Outcome.panic "Failed to deserialize transaction" := by decide
  rw [h] at ht
  cases ht

/-- C9, amended: `TransactionDeserialize` panics with "Failed to deserialize
transaction" exactly when the decoder reports an error, and returns a transaction
to its caller exactly when the decoder reports none. -/
theorem TransactionDeserialize_panic_iff (E : Externals Address SecKey PubKey) (b : List Byte) :
    (TransactionDeserialize E b = Outcome.panic "Failed to deserialize transaction" ↔
        E.DeserializeRaw b (Transaction.zero Address) ≠ none) ∧
      ((∃ t, TransactionDeserialize E b = Outcome.ret t) ↔
        E.DeserializeRaw b (Transaction.zero Address) = none) := by
  unfold TransactionDeserialize
  cases h : E.DeserializeRaw b (Transaction.zero Address) with
  | none => simp [h]
  | some e => simp [h]

/-- C10: on a transaction with fewer than 65535 inputs, `PushInput h` returns the
number of inputs before the call and appends the single input with that `SigIdx`
and `UxOut = h` at the end of `In`; the earlier inputs, the outputs and the
header are unchanged. -/
theorem PushInput_appends (t : Transaction Address) (h : SHA256)
    (hlt : t.In.length < 65535) :
    ∃ t1 : Transaction Address,
      PushInput t h = Outcome.ret (t1, t.In.length) ∧
        t1.In = t.In ++ [{ SigIdx := t.In.length, UxOut := h }] ∧
        t1.In.length = t.In.length + 1 ∧
        (∀ i, i < t.In.length → t1.In[i]? = t.In[i]?) ∧
        t1.Out = t.Out ∧ t1.Header = t.Header := by
  have hmod : t.In.length % 65536 = t.In.length := Nat.mod_eq_of_lt (by omega)
  have hge : ¬ t.In.length ≥ MaxUint16 := by
    unfold MaxUint16
    omega
  refine ⟨{ t with In := t.In ++ [{ SigIdx := t.In.length, UxOut := h }] }, ?_, rfl, ?_, ?_,
    rfl, rfl⟩
  · unfold PushInput
    simp only [hge, if_false, hmod]
  · simp
  · intro i hi
    simp [List.getElem?_append_left hi]

/-- Witness of C10: a second input pushed on a transaction that has one. -/
theorem PushInput_appends_witness :
    signedTxn.In.length < 65535 ∧
      ∃ t1 : Transaction Nat,
        PushInput signedTxn (hashOf 2) = Outcome.ret (t1, signedTxn.In.length) ∧
          t1.In = signedTxn.In ++ [{ SigIdx := signedTxn.In.length, UxOut := hashOf 2 }] ∧
          t1.In.length = signedTxn.In.length + 1 ∧
          (∀ i, i < signedTxn.In.length → t1.In[i]? = signedTxn.In[i]?) ∧
          t1.Out = signedTxn.Out ∧ t1.Header = signedTxn.Header :=
  ⟨by decide, PushInput_appends signedTxn (hashOf 2) (by decide)⟩

/-- C11: `PushInput` panics if and only if the transaction already has at least
65535 inputs; the receiver after a panicking call is the receiver before it; and
from the empty transaction a list of hashes can be pushed without panic exactly
when it has at most 65535 elements, giving that many inputs. -/
theorem PushInput_panics_iff (t : Transaction Address) (h : SHA256) :
    ((∃ msg, PushInput t h = Outcome.panic msg) ↔ 65535 ≤ t.In.length) ∧
      (PushInputRun t h).1 =
        (if 65535 ≤ t.In.length then t
          else { t with In := t.In ++ [{ SigIdx := t.In.length, UxOut := h }] }) ∧
      PushInput t h =
        (match (PushInputRun t h).2 with
          | Outcome.ret n => Outcome.ret ((PushInputRun t h).1, n)
          | Outcome.panic msg => Outcome.panic msg) ∧
      (∀ hs : List SHA256,
        (∃ t1, pushInputs hs (Transaction.zero Address) = Outcome.ret t1 ∧
          t1.In.length = hs.length) ↔ hs.length ≤ 65535) := by
  refine ⟨?_, ?_, ?_, ?_⟩
  · constructor
    · rintro ⟨msg, hp⟩
      by_contra hlt
      rw [PushInput_ok t h (by omega)] at hp
      cases hp
    · intro hge
      exact ⟨_, PushInput_panic t h hge⟩
  · by_cases hge : 65535 ≤ t.In.length
    · have hge1 : t.In.length ≥ MaxUint16 := hge
      simp only [PushInputRun, hge1, hge, if_true]
    · have hge1 : ¬ t.In.length ≥ MaxUint16 := hge
      simp only [PushInputRun, hge1, hge, if_false,
        Nat.mod_eq_of_lt (show t.In.length < 65536 by omega)]
  · by_cases hge : 65535 ≤ t.In.length
    · have hge1 : t.In.length ≥ MaxUint16 := hge
      simp only [PushInputRun, PushInput, hge1, if_true]
    · have hge1 : ¬ t.In.length ≥ MaxUint16 := hge
      simp only [PushInputRun, PushInput, hge1, if_false]
  · intro hs
    constructor
    · rintro ⟨t1, hrun, _⟩
      by_contra hgt
      rw [pushInputs_panic hs (Transaction.zero Address)
        (by simp only [Transaction.zero, List.length_nil]; omega)
        (by simp [Transaction.zero])] at hrun
      cases hrun
    · intro hle
      obtain ⟨t1, hrun, hlen, _⟩ := pushInputs_ok hs (Transaction.zero Address)
        (by simp only [Transaction.zero, List.length_nil]; omega)
      refine ⟨t1, hrun, ?_⟩
      simp only [Transaction.zero, List.length_nil] at hlen
      omega

/-- C12: in every transaction obtained from the empty one by a sequence of
`PushInput`, `PushOutput`, `UpdateHeader` and `SignInputs` calls none of which
panics, the input at position `i` has `SigIdx` equal to `i`, and there are at
most 65535 inputs. -/
theorem SigIdx_sequential (E : Externals Address SecKey PubKey)
    (cs : List (BuilderCall Address SecKey)) (t : Transaction Address)
    (hrun : runCalls E cs (Transaction.zero Address) = Outcome.ret t) :
    (∀ i (h : i < t.In.length), t.In[i].SigIdx = i) ∧ t.In.length ≤ 65535 := by
  obtain ⟨hidx, hlen, _⟩ := BuilderInv_runCalls E cs (Transaction.zero Address) t
    BuilderInv_zero hrun
  exact ⟨hidx, hlen⟩

/-- Witness of C12: the four calls of the end-to-end scenario build `signedTxn`. -/
theorem SigIdx_sequential_witness :
    runCalls sampleExternals sampleCalls (Transaction.zero Nat) = Outcome.ret signedTxn ∧
      (∀ i (h : i < signedTxn.In.length), signedTxn.In[i].SigIdx = i) ∧
      signedTxn.In.length ≤ 65535 :=
  ⟨sampleCalls_run, SigIdx_sequential sampleExternals sampleCalls signedTxn sampleCalls_run⟩

/-- C13: on a transaction with at most 65535 inputs, for an index below the number
of inputs and a key whose signature `sig` of the inner hash (the digest of the
encoded inputs followed by the encoded outputs) is produced, `signInput` stores
`sig` at `Header.Sigs[idx]`; the signature list gets the length
`max (old length) (idx + 1)`, keeps its other old entries, has the zero signature
at the other new positions, and `In`, `Out` and `Header.Hash` are unchanged. -/
theorem signInput_stores (E : Externals Address SecKey PubKey) (t : Transaction Address)
    (idx : Nat) (sec : SecKey) (sig : Sig) (hlen : t.In.length ≤ 65535)
    (hidx : idx < t.In.length)
    (hsig : E.SignHash (E.SumSHA256 (E.serializeIn t.In ++ E.serializeOut t.Out)) sec =
      Except.ok sig) :
    ∃ t1 : Transaction Address,
      signInput E t idx sec = Outcome.ret t1 ∧
        t1.Header.Sigs[idx]? = some sig ∧
        t1.Header.Sigs.length = max t.Header.Sigs.length (idx + 1) ∧
        (∀ i, i < t.Header.Sigs.length → i ≠ idx → t1.Header.Sigs[i]? = t.Header.Sigs[i]?) ∧
        (∀ i, t.Header.Sigs.length ≤ i → i < t1.Header.Sigs.length → i ≠ idx →
          t1.Header.Sigs[i]? = some (ByteArr.zero 65)) ∧
        t1.In = t.In ∧ t1.Out = t.Out ∧ t1.Header.Hash = t.Header.Hash := by
  refine ⟨_, signInput_ok E t idx sec sig hlen hidx hsig, ?_, ?_, ?_, ?_, rfl, rfl, rfl⟩
  · have hlt : idx < (t.Header.Sigs ++
        List.replicate (idx + 1 - t.Header.Sigs.length) (ByteArr.zero 65)).length := by
      simp only [List.length_append, List.length_replicate]
      omega
    simp only [List.getElem?_set_self hlt]
  · simp only [List.length_set, List.length_append, List.length_replicate]
    omega
  · intro i hi hne
    simp only
    rw [List.getElem?_set_ne (Ne.symm hne), List.getElem?_append_left hi]
  · intro i hle hlt hne
    simp only [List.length_set, List.length_append, List.length_replicate] at hlt
    simp only
    rw [List.getElem?_set_ne (Ne.symm hne), List.getElem?_append_right hle,
      List.getElem?_replicate]
    simp only [ite_eq_left_iff, not_lt]
    intro h
    omega

set_option maxRecDepth 8000 in
/-- Witness of C13: the third input of `dupLaterTxn`, which has no signatures yet,
signed with the key 5: two zero signatures are created before it. -/
theorem signInput_stores_witness :
    dupLaterTxn.Header.Sigs = [] ∧
      ∃ t1 : Transaction Nat,
        signInput sampleExternals dupLaterTxn 2 5 = Outcome.ret t1 ∧
          t1.Header.Sigs[2]? = some (signWith (hashInner sampleExternals dupLaterTxn) 5) ∧
          t1.Header.Sigs.length = max dupLaterTxn.Header.Sigs.length (2 + 1) ∧
          (∀ i, i < dupLaterTxn.Header.Sigs.length → i ≠ 2 →
            t1.Header.Sigs[i]? = dupLaterTxn.Header.Sigs[i]?) ∧
          (∀ i, dupLaterTxn.Header.Sigs.length ≤ i → i < t1.Header.Sigs.length → i ≠ 2 →
            t1.Header.Sigs[i]? = some (ByteArr.zero 65)) ∧
          t1.In = dupLaterTxn.In ∧ t1.Out = dupLaterTxn.Out ∧
          t1.Header.Hash = dupLaterTxn.Header.Hash :=
  ⟨rfl, signInput_stores sampleExternals dupLaterTxn 2 5
    (signWith (hashInner sampleExternals dupLaterTxn) 5) (by decide) (by decide) rfl⟩

/-- C14: on a transaction whose input `i` has `SigIdx` `i`, with at most 65535
inputs and no signatures yet, when `keys[i]` signs the inner hash (the digest of
the encoded inputs followed by the encoded outputs) as `sg i` for every input,
`SignInputs keys` returns; afterwards there are exactly as many signatures as
inputs, `Header.Sigs[SigIdx]` is `sg SigIdx` for every input, and `In`, `Out` and
`Header.Hash` are unchanged. -/
theorem SignInputs_signs_all (E : Externals Address SecKey PubKey) (keys : Nat → SecKey)
    (sg : Nat → Sig) (t : Transaction Address)
    (hidx : ∀ i (h : i < t.In.length), t.In[i].SigIdx = i) (hlen : t.In.length ≤ 65535)
    (hnone : t.Header.Sigs = [])
    (hsign : ∀ i, i < t.In.length →
      E.SignHash (E.SumSHA256 (E.serializeIn t.In ++ E.serializeOut t.Out)) (keys i) =
        Except.ok (sg i)) :
    ∃ t1 : Transaction Address,
      SignInputs E t keys = Outcome.ret t1 ∧
        t1.Header.Sigs.length = t.In.length ∧
        (∀ i (h : i < t.In.length),
          t1.Header.Sigs[t.In[i].SigIdx]? = some (sg t.In[i].SigIdx)) ∧
        t1.In = t.In ∧ t1.Out = t.Out ∧ t1.Header.Hash = t.Header.Hash := by
  refine ⟨_, SignInputs_spec E keys sg t hidx hlen hnone hsign, ?_, ?_, rfl, rfl, rfl⟩
  · simp
  · intro i h
    rw [hidx i h]
    simp [h]

set_option maxRecDepth 8000 in
/-- Witness of C14: the three inputs of `dupLaterTxn` signed with the keys 5, 6
and 7. -/
theorem SignInputs_signs_all_witness :
    dupLaterTxn.In.length = 3 ∧
      ∃ t1 : Transaction Nat,
        SignInputs sampleExternals dupLaterTxn (fun i => i + 5) = Outcome.ret t1 ∧
          t1.Header.Sigs.length = dupLaterTxn.In.length ∧
          (∀ i (h : i < dupLaterTxn.In.length),
            t1.Header.Sigs[dupLaterTxn.In[i].SigIdx]? =
              some (signWith (hashInner sampleExternals dupLaterTxn)
                (dupLaterTxn.In[i].SigIdx + 5))) ∧
          t1.In = dupLaterTxn.In ∧ t1.Out = dupLaterTxn.Out ∧
          t1.Header.Hash = dupLaterTxn.Header.Hash :=
  ⟨rfl, SignInputs_signs_all sampleExternals (fun i => i + 5)
    (fun i => signWith (hashInner sampleExternals dupLaterTxn) (i + 5)) dupLaterTxn
    (by decide) (by decide) rfl (fun _ _ => rfl)⟩

/-- C15: `UpdateHeader` sets `Header.Hash` to the digest of the encoded inputs
followed by the encoded outputs and changes nothing else; the stored value is the
same for transactions with the same `In` and `Out`; applying it twice is applying
it once; signing (one input, or all inputs) and then `UpdateHeader` gives the
transaction that `UpdateHeader` and then signing gives, with the same
`Header.Hash`; and `Verify` after `UpdateHeader` does not return "Invalid header
hash". -/
theorem UpdateHeader_spec (E : Externals Address SecKey PubKey) (t : Transaction Address) :
    UpdateHeader E t =
        { t with Header := { t.Header with
          Hash := E.SumSHA256 (E.serializeIn t.In ++ E.serializeOut t.Out) } } ∧
      (∀ t2 : Transaction Address, t2.In = t.In → t2.Out = t.Out →
        (UpdateHeader E t2).Header.Hash = (UpdateHeader E t).Header.Hash) ∧
      UpdateHeader E (UpdateHeader E t) = UpdateHeader E t ∧
      (∀ idx sec t1, signInput E t idx sec = Outcome.ret t1 →
        signInput E (UpdateHeader E t) idx sec = Outcome.ret (UpdateHeader E t1) ∧
          (UpdateHeader E t1).Header.Hash = (UpdateHeader E t).Header.Hash) ∧
      (∀ keys t1, SignInputs E t keys = Outcome.ret t1 →
        SignInputs E (UpdateHeader E t) keys = Outcome.ret (UpdateHeader E t1) ∧
          (UpdateHeader E t1).Header.Hash = (UpdateHeader E t).Header.Hash) ∧
      Verify E (UpdateHeader E t) ≠ Outcome.ret (some "Invalid header hash") := by
  refine ⟨rfl, ?_, rfl, ?_, ?_, Verify_ne_invalid_of_hash_eq E (UpdateHeader E t) rfl⟩
  · intro t2 hin hout
    exact hashInner_congr E t2 t hin hout
  · intro idx sec t1 h
    refine ⟨signInput_UpdateHeader E t t1 idx sec h, ?_⟩
    obtain ⟨sig, _, _, _, ht1⟩ := signInput_ret E t t1 idx sec h
    subst ht1
    rfl
  · intro keys t1 h
    unfold SignInputs at h
    obtain ⟨hin, hout, _, _⟩ := signInputsLoop_ret E keys t.In t t1 h
    exact ⟨signInputsLoop_UpdateHeader E keys t.In t t1 h, hashInner_congr E t1 t hin hout⟩

set_option maxRecDepth 8000 in
/-- C16, as stated, fails: `coins20Txn` and `coins40Txn` are finalized, `Less`
puts the first before the second, and yet the identity hash of the first is not
lexicographically smaller than that of the second (it is larger). -/
theorem Less_not_by_identity_hash :
    hashInner sampleExternals coins20Txn = coins20Txn.Header.Hash ∧
      hashInner sampleExternals coins40Txn = coins40Txn.Header.Hash ∧
      Less orderTxns 0 1 = Outcome.ret true ∧
      bytesCompare (Hash sampleExternals coins20Txn).val (Hash sampleExternals coins40Txn).val
        = 1 ∧
      ¬ List.Lex (fun x y => x < y) (Hash sampleExternals coins20Txn).val
        (Hash sampleExternals coins40Txn).val := by
  have hcmp : bytesCompare (Hash sampleExternals coins20Txn).val
      (Hash sampleExternals coins40Txn).val = 1 := by decide
  refine ⟨by decide, by decide, by decide, hcmp, ?_⟩
  intro hlex
  have hneg := (bytesCompare_neg_iff _ _).mpr hlex
  rw [hcmp] at hneg
  exact absurd hneg (by decide)

/-- C16, amended: at valid indices `Less i j` holds if and only if the stored
header hash (`Header.Hash`, the inner hash) of transaction `i` is
lexicographically smaller, byte by byte, than that of transaction `j`. -/
theorem Less_by_header_hash (self : List (Transaction Address)) (i j : Nat)
    (hi : i < self.length) (hj : j < self.length) :
    (Less self i j = Outcome.ret true ↔
        List.Lex (fun x y => x < y) self[i].Header.Hash.val self[j].Header.Hash.val) ∧
      (Less self i j = Outcome.ret false ↔
        ¬ List.Lex (fun x y => x < y) self[i].Header.Hash.val self[j].Header.Hash.val) := by
  rw [Less_eq self i j hi hj]
  constructor
  · constructor
    · intro h
      injection h with h
      exact of_decide_eq_true h
    · intro h
      rw [decide_eq_true h]
  · constructor
    · intro h
      injection h with h
      exact of_decide_eq_false h
    · intro h
      rw [decide_eq_false h]

set_option maxRecDepth 8000 in
/-- Witness of C16 as amended: the header hash of `coins20Txn` is smaller than
that of `coins40Txn`, and `Less` says so. -/
theorem Less_by_header_hash_witness :
    List.Lex (fun x y => x < y) coins20Txn.Header.Hash.val coins40Txn.Header.Hash.val ∧
      Less orderTxns 0 1 = Outcome.ret true :=
  ⟨by decide,
    (Less_by_header_hash orderTxns 0 1 (by decide) (by decide)).1.mpr (by decide)⟩

/-- C17: at valid indices, `Less` is irreflexive and transitive, and for two
transactions whose compared hashes differ exactly one of `Less i j` and
`Less j i` holds; `Swap i j` returns the slice with elements `i` and `j` exchanged,
of the same `Len`, every other element unchanged. -/
theorem Less_strict_order (self : List (Transaction Address)) (i j k : Nat)
    (hi : i < self.length) (hj : j < self.length) (hk : k < self.length) :
    Less self i i = Outcome.ret false ∧
      (Less self i j = Outcome.ret true → Less self j k = Outcome.ret true →
        Less self i k = Outcome.ret true) ∧
      (self[i].Header.Hash ≠ self[j].Header.Hash →
        (Less self i j = Outcome.ret true ∧ Less self j i = Outcome.ret false) ∨
          (Less self i j = Outcome.ret false ∧ Less self j i = Outcome.ret true)) ∧
      (∃ s : List (Transaction Address),
        Swap self i j = Outcome.ret s ∧ Len s = Len self ∧
          s[i]? = self[j]? ∧ s[j]? = self[i]? ∧
          (∀ m, m ≠ i → m ≠ j → s[m]? = self[m]?)) := by
  refine ⟨?_, ?_, ?_, ?_⟩
  · rw [Less_eq self i i hi hi]
    rw [decide_eq_false (IsIrrefl.irrefl self[i].Header.Hash.val)]
  · rw [Less_eq self i j hi hj, Less_eq self j k hj hk, Less_eq self i k hi hk]
    intro h1 h2
    injection h1 with h1
    injection h2 with h2
    rw [decide_eq_true (IsTrans.trans _ _ _ (of_decide_eq_true h1) (of_decide_eq_true h2))]
  · intro hne
    have hval : self[i].Header.Hash.val ≠ self[j].Header.Hash.val :=
      fun h => hne (Subtype.ext h)
    rw [Less_eq self i j hi hj, Less_eq self j i hj hi]
    have htri : List.Lex (fun x y : Byte => x < y) self[i].Header.Hash.val
          self[j].Header.Hash.val ∨
        self[i].Header.Hash.val = self[j].Header.Hash.val ∨
        List.Lex (fun x y : Byte => x < y) self[j].Header.Hash.val
          self[i].Header.Hash.val :=
      IsTrichotomous.trichotomous _ _
    rcases htri with h | h | h
    · left
      rw [decide_eq_true h, decide_eq_false (IsAsymm.asymm _ _ h)]
      exact ⟨rfl, rfl⟩
    · exact absurd h hval
    · right
      rw [decide_eq_true h, decide_eq_false (IsAsymm.asymm _ _ h)]
      exact ⟨rfl, rfl⟩
  · refine ⟨_, Swap_eq self i j hi hj, ?_, ?_, ?_, ?_⟩
    · simp [Len]
    · by_cases hij : i = j
      · subst hij
        simp [hi]
      · rw [List.getElem?_set_ne (Ne.symm hij), List.getElem?_set_self hi]
        simp [hj]
    · rw [List.getElem?_set_self (by simpa using hj)]
      simp [hi]
    · intro m hmi hmj
      rw [List.getElem?_set_ne (Ne.symm hmj), List.getElem?_set_ne (Ne.symm hmi)]

set_option maxRecDepth 8000 in
/-- Witness of C17: the three transactions of `threeTxns` at the indices 0, 1
and 2. -/
theorem Less_strict_order_witness :
    threeTxns.length = 3 ∧
      Less threeTxns 0 0 = Outcome.ret false ∧
      Less threeTxns 0 1 = Outcome.ret true ∧ Less threeTxns 1 2 = Outcome.ret true ∧
      Less threeTxns 0 2 = Outcome.ret true ∧ Less threeTxns 1 0 = Outcome.ret false ∧
      (∃ s : List (Transaction Nat),
        Swap threeTxns 0 1 = Outcome.ret s ∧ Len s = Len threeTxns ∧
          s[0]? = threeTxns[1]? ∧ s[1]? = threeTxns[0]? ∧
          (∀ m, m ≠ 0 → m ≠ 1 → s[m]? = threeTxns[m]?)) := by
  have h := Less_strict_order threeTxns 0 1 2 (by decide) (by decide) (by decide)
  have h01 : Less threeTxns 0 1 = Outcome.ret true := by decide
  have h12 : Less threeTxns 1 2 = Outcome.ret true := by decide
  exact ⟨rfl, h.1, h01, h12, h.2.1 h01 h12, by decide, h.2.2.2⟩

set_option maxRecDepth 8000 in
/-- C18: the transaction `signedTxn` has a matching header hash and one output
`(7, 100, 10)`, for which the claim has `Verify` compute an identifier with the
identity hash `Hash()` as `SrcTransaction`. The call computes no identifier: it
panics in the duplicate-input scan, before the loop over the outputs, and its
local `outputs` never holds the identifier of the claim. -/
theorem Verify_signedTxn_computes_no_identifier :
    hashInner sampleExternals signedTxn = signedTxn.Header.Hash ∧
      signedTxn.Out = [{ DestinationAddress := 7, Coins := 100, Hours := 10 }] ∧
      Verify sampleExternals signedTxn = Outcome.panic "index out of range" ∧
      VerifyWithOutputs sampleExternals signedTxn =
        (Verify sampleExternals signedTxn, none) ∧
      (VerifyWithOutputs sampleExternals signedTxn).2 ≠
        some [sampleExternals.uxOutHash
          { SrcTransaction := Hash sampleExternals signedTxn, Address := 7, Coins := 100,
            Hours := 10 }] := by
  have hv : Verify sampleExternals signedTxn = Outcome.panic "index out of range" :=
    (Verify_of_checks sampleExternals signedTxn { SigIdx := 0, UxOut := hashOf 1 } []
      (by decide) rfl (by decide) (by decide)).trans (by decide)
  have hw := VerifyWithOutputs_eq sampleExternals signedTxn
  refine ⟨by decide, rfl, hv, hw, ?_⟩
  rw [hw]
  exact fun h => Option.noConfusion h

/-- C19: `Verify` returns `nil` for no transaction. With empty `In` it returns
"Invalid header hash" or "No inputs"; with non-empty `In` the duplicate-input scan
never falls through: it returns "Duplicate spend" exactly when some later input
has the `UxOut` of `In[0]` and otherwise indexes `In` out of range; so `Verify`
never returns the duplicate-output error or a signature error. -/
theorem Verify_never_nil (E : Externals Address SecKey PubKey) (t : Transaction Address) :
    Verify E t ≠ Outcome.ret none ∧
      (t.In = [] →
        Verify E t = Outcome.ret (some "Invalid header hash") ∨
          Verify E t = Outcome.ret (some "No inputs")) ∧
      (∀ a rest, t.In = a :: rest →
        (dupOuter t.In 0 = LoopExit.returned "Duplicate spend" ↔
            ∃ b, b ∈ rest ∧ a.UxOut = b.UxOut) ∧
          (dupOuter t.In 0 = LoopExit.panicked "index out of range" ↔
            ¬ ∃ b, b ∈ rest ∧ a.UxOut = b.UxOut) ∧
          dupOuter t.In 0 ≠ LoopExit.done) ∧
      Verify E t ≠ Outcome.ret (some "Duplicate output in transaction") ∧
      Verify E t ≠ Outcome.ret (some "pubkey recovery from signature failed") ∧
      Verify E t ≠ Outcome.ret (some "signature verification failed") := by
  have hcases := Verify_eq_cases E t
  refine ⟨?_, ?_, ?_, ?_, ?_, ?_⟩
  · intro h
    rw [h] at hcases
    rcases hcases with h1 | h1 | h1 | h1 | h1 | h1 <;> exact absurd h1 (by decide)
  · intro hin
    by_cases hh : hashInner E t = t.Header.Hash
    · exact Or.inr (Verify_of_no_inputs E t hh hin)
    · exact Or.inl (Verify_of_hash_ne E t hh)
  · intro a rest hin
    have hany : rest.any (fun b => decide (a.UxOut = b.UxOut)) = true ↔
        ∃ b, b ∈ rest ∧ a.UxOut = b.UxOut := by
      simp [List.any_eq_true]
    rw [hin, dupOuter_cons]
    by_cases hdup : rest.any (fun b => decide (a.UxOut = b.UxOut)) = true
    · rw [if_pos hdup]
      refine ⟨⟨fun _ => hany.mp hdup, fun _ => rfl⟩, ⟨fun h => ?_, fun h => ?_⟩, ?_⟩
      · cases h
      · exact absurd (hany.mp hdup) h
      · intro h
        cases h
    · rw [if_neg hdup]
      refine ⟨⟨fun h => ?_, fun h => ?_⟩, ⟨fun _ h => hdup (hany.mpr h), fun _ => rfl⟩, ?_⟩
      · cases h
      · exact absurd (hany.mpr h) hdup
      · intro h
        cases h
  · intro h
    rw [h] at hcases
    rcases hcases with h1 | h1 | h1 | h1 | h1 | h1 <;> exact absurd h1 (by decide)
  · intro h
    rw [h] at hcases
    rcases hcases with h1 | h1 | h1 | h1 | h1 | h1 <;> exact absurd h1 (by decide)
  · intro h
    rw [h] at hcases
    rcases hcases with h1 | h1 | h1 | h1 | h1 | h1 <;> exact absurd h1 (by decide)

/-- C20: when the keys sign whatever hash they are given, the builder run with
exactly 65535 pushed inputs, one output, `UpdateHeader` and `SignInputs` returns a
transaction with 65535 inputs and 65535 signatures, which `Verify` rejects with
"signatures count exceeds uint16"; and no transaction with at most 65534 inputs
that a run of builder calls returns gets that error from `Verify`. -/
theorem ceilings_differ_by_one (E : Externals Address SecKey PubKey) (keys : Nat → SecKey)
    (sg : SHA256 → Nat → Sig) (hs : List SHA256) (dst : Address) (coins hours : Nat)
    (hlen : hs.length = 65535)
    (hsign : ∀ h i, E.SignHash h (keys i) = Except.ok (sg h i)) :
    (∃ t : Transaction Address,
        buildAndSign E hs dst coins hours keys = Outcome.ret t ∧
          t.In.length = 65535 ∧ t.Header.Sigs.length = 65535 ∧
          Verify E t = Outcome.ret (some "signatures count exceeds uint16")) ∧
      (∀ (cs : List (BuilderCall Address SecKey)) (t : Transaction Address),
        runCalls E cs (Transaction.zero Address) = Outcome.ret t → t.In.length ≤ 65534 →
          Verify E t ≠ Outcome.ret (some "signatures count exceeds uint16")) := by
  constructor
  · obtain ⟨t0, hrun, hl, hout, hhdr, hidx⟩ := pushInputs_ok hs (Transaction.zero Address)
      (by simp only [Transaction.zero, List.length_nil]; omega)
    have hl0 : t0.In.length = 65535 := by
      simp only [Transaction.zero, List.length_nil] at hl
      omega
    have hidx0 : ∀ i (h : i < t0.In.length), t0.In[i].SigIdx = i :=
      hidx (fun i h => absurd h (by simp [Transaction.zero]))
    have hnone : (UpdateHeader E (PushOutput t0 dst coins hours)).Header.Sigs = [] := by
      show t0.Header.Sigs = []
      rw [hhdr]
      rfl
    have hspec := SignInputs_spec E keys
      (sg (hashInner E (UpdateHeader E (PushOutput t0 dst coins hours))))
      (UpdateHeader E (PushOutput t0 dst coins hours)) hidx0 (by
        show t0.In.length ≤ 65535
        omega) hnone (fun i _ => hsign _ i)
    have hbuild : buildAndSign E hs dst coins hours keys =
        SignInputs E (UpdateHeader E (PushOutput t0 dst coins hours)) keys := by
      simp only [buildAndSign, hrun]
    refine ⟨_, hbuild.trans hspec, ?_, ?_, ?_⟩
    · exact hl0
    · show ((List.range t0.In.length).map _).length = 65535
      simp [hl0]
    · apply Verify_of_sig_count
      · rfl
      · show t0.In ≠ []
        intro h
        rw [h] at hl0
        simp at hl0
      · show t0.Out ++ [_] ≠ []
        simp
      · show 65535 ≤ ((List.range t0.In.length).map _).length
        simp [hl0]
  · intro cs t hrun hle hv
    obtain ⟨_, _, hsigs⟩ := BuilderInv_runCalls E cs (Transaction.zero Address) t
      BuilderInv_zero hrun
    have := Verify_sig_count_only E t hv
    omega

/-- Witness of C20: 65535 inputs under `sampleExternals`, whose keys always sign;
and the signed transaction of the end-to-end scenario, with one input. -/
theorem ceilings_differ_by_one_witness :
    (List.replicate 65535 (hashOf 1)).length = 65535 ∧
      (∃ t : Transaction Nat,
        buildAndSign sampleExternals (List.replicate 65535 (hashOf 1)) 7 100 10
            (fun i => i + 5) = Outcome.ret t ∧
          t.In.length = 65535 ∧ t.Header.Sigs.length = 65535 ∧
          Verify sampleExternals t = Outcome.ret (some "signatures count exceeds uint16")) ∧
      Verify sampleExternals signedTxn ≠
        Outcome.ret (some "signatures count exceeds uint16") := by
  have h := ceilings_differ_by_one sampleExternals (fun i => i + 5)
    (fun h i => signWith h (i + 5)) (List.replicate 65535 (hashOf 1)) 7 100 10
    (List.length_replicate 65535 (hashOf 1)) (fun _ _ => rfl)
  exact ⟨List.length_replicate 65535 (hashOf 1), h.1,
    h.2 sampleCalls signedTxn sampleCalls_run (by decide)⟩

end Claims

end Coin
